import Mathlib

/-!
Verification development for `xreverselabs.go`.

Shallow embedding of `src/xreverselabs.go` (a /24 reverse-lookup scanner) and
of the parts of the Go standard library its behaviour depends on.

* Go strings are modelled as lists of characters (`Str`).
* `net.ParseIP` / `IP.To4` follow the Go standard library (`net/netip`
  parser, which `net.ParseIP` delegates to).
* The worker pool is modelled as an interleaving transition system.
* Console, file system, HTTP exchange and JSON decoding are explicit
  inputs and outputs of the functions that use them.
-/

namespace XReverseLabs

/-! ## Strings -/

/-- A Go string, as the list of its characters. -/
abbrev Str := List Char

/-- `strings.Split(s, sep)` for a one-character separator: the pieces of `s`
between occurrences of `sep`; an empty `s` gives one empty piece. -/
def Split : Str → Char → List Str
  | [], _ => [[]]
  | c :: rest, sep =>
    if c = sep then [] :: Split rest sep
    else
      match Split rest sep with
      | [] => [[c]]
      | p :: ps => (c :: p) :: ps

/-- `strings.Join(parts, sep)`. -/
def Join (parts : List Str) (sep : Str) : Str :=
  sep.intercalate parts

/-- The verb `%d` of `fmt.Sprintf` on a non-negative integer. -/
def fmtDecimal (n : Nat) : Str :=
  Nat.toDigits 10 n

/-- `fmt.Sprintf("%s.%d", pfx, i)`. -/
def Sprintf (pfx : Str) (i : Nat) : Str :=
  pfx ++ '.' :: fmtDecimal i

/-! ## net.ParseIP (Go standard library) -/

/-- The test `s[i] >= '0' && s[i] <= '9'`. -/
def isDigit (c : Char) : Bool :=
  decide ('0' ≤ c) && decide (c ≤ '9')

/-- The loop of `netip.parseIPv4Fields`: `prev` is `s[i-1]` (`none` when
`i == 0`), `val`, `digLen`, `pos` are the loop variables and `fields` the octets
stored so far.  `none` is a parse error. -/
def parseIPv4Loop : Str → Option Char → Nat → Nat → Nat → List Nat → Option (List Nat)
  | [], _, val, _, pos, fields =>
    if pos < 3 then none else some (fields ++ [val])
  | c :: rest, prev, val, digLen, pos, fields =>
    if isDigit c then
      if digLen = 1 ∧ val = 0 then none
      else if val * 10 + (c.toNat - 48) > 255 then none
      else parseIPv4Loop rest (some c) (val * 10 + (c.toNat - 48)) (digLen + 1) pos fields
    else if c = '.' then
      if prev = none ∨ rest = [] ∨ prev = some '.' then none
      else if pos = 3 then none
      else parseIPv4Loop rest (some c) 0 0 (pos + 1) (fields ++ [val])
    else none

/-- `netip.parseIPv4Fields` on a whole string: the four octets, or `none`. -/
def parseIPv4Fields (s : Str) : Option (List Nat) :=
  parseIPv4Loop s none 0 0 0 []

/-- Value of a hexadecimal digit, `none` for any other character. -/
def hexVal (c : Char) : Option Nat :=
  if '0' ≤ c ∧ c ≤ '9' then some (c.toNat - 48)
  else if 'a' ≤ c ∧ c ≤ 'f' then some (c.toNat - 97 + 10)
  else if 'A' ≤ c ∧ c ≤ 'F' then some (c.toNat - 65 + 10)
  else none

/-- The inner loop of `netip.parseIPv6` reading one hexadecimal group:
returns `(off, acc)`, or `none` for more than four digits or a value above
`0xFFFF`. -/
def scanHex : Str → Nat → Nat → Option (Nat × Nat)
  | [], off, acc => some (off, acc)
  | c :: rest, off, acc =>
    match hexVal c with
    | none => some (off, acc)
    | some d =>
      if off > 3 then none
      else if (acc * 16 + d) % 2 ^ 32 > 65535 then none
      else scanHex rest (off + 1) ((acc * 16 + d) % 2 ^ 32)

/-- State of `netip.parseIPv6` when its main loop is left: the unread rest of
the string, the write index `i`, the position of `::` (if any) and the bytes
`ip[0..i)` written so far. -/
structure V6State where
  rest : Str
  i : Nat
  ellipsis : Option Nat
  ip : List Nat
deriving DecidableEq, Repr

/-- The main loop `for i < 16` of `netip.parseIPv6`.  Every iteration that
continues adds 2 to `i`, so `fuel = 8` iterations always suffice. -/
def parseIPv6Loop : Nat → Str → Nat → Option Nat → List Nat → Option V6State
  | 0, s, i, ellipsis, ip => if i < 16 then none else some ⟨s, i, ellipsis, ip⟩
  | fuel + 1, s, i, ellipsis, ip =>
    if i < 16 then
      match scanHex s 0 0 with
      | none => none
      | some (off, acc) =>
        if off = 0 then none
        else if (s.drop off).head? = some '.' then
          if ellipsis = none ∧ i ≠ 12 then none
          else if i + 4 > 16 then none
          else
            match parseIPv4Fields s with
            | none => none
            | some fields => some ⟨[], i + 4, ellipsis, ip ++ fields⟩
        else
          match s.drop off with
          | [] => some ⟨[], i + 2, ellipsis, ip ++ [acc / 256, acc % 256]⟩
          | c :: s1 =>
            if c ≠ ':' then none
            else
              match s1 with
              | [] => none
              | c1 :: s2 =>
                if c1 = ':' then
                  if ellipsis ≠ none then none
                  else if s2 = [] then
                    some ⟨[], i + 2, some (i + 2), ip ++ [acc / 256, acc % 256]⟩
                  else
                    parseIPv6Loop fuel s2 (i + 2) (some (i + 2)) (ip ++ [acc / 256, acc % 256])
                else
                  parseIPv6Loop fuel s1 (i + 2) ellipsis (ip ++ [acc / 256, acc % 256])
    else some ⟨s, i, ellipsis, ip⟩

/-- The end of `netip.parseIPv6`: the whole string must be used, and a short
address is completed with zero bytes at the `::`. -/
def finishIPv6 (st : V6State) : Option (List Nat) :=
  if st.rest ≠ [] then none
  else if st.i < 16 then
    match st.ellipsis with
    | none => none
    | some e => some (st.ip.take e ++ List.replicate (16 - st.i) 0 ++ st.ip.drop e)
  else if st.ellipsis ≠ none then none
  else some st.ip

/-- `netip.parseIPv6`: the 16 bytes and the zone, or `none`. -/
def parseIPv6 (s0 : Str) : Option (List Nat × Str) :=
  let s := s0.takeWhile (fun c => c ≠ '%')
  let zone := (s0.dropWhile (fun c => c ≠ '%')).drop 1
  if '%' ∈ s0 ∧ zone = [] then none
  else
    match s with
    | ':' :: ':' :: s1 =>
      if s1 = [] then some (List.replicate 16 0, zone)
      else (parseIPv6Loop 8 s1 0 (some 0) [] >>= finishIPv6).map (fun ip => (ip, zone))
    | _ => (parseIPv6Loop 8 s 0 none [] >>= finishIPv6).map (fun ip => (ip, zone))

/-- `Addr.As16` of an IPv4 address: the IPv4-mapped IPv6 form. -/
def v4InV6 (fields : List Nat) : List Nat :=
  [0, 0, 0, 0, 0, 0, 0, 0, 0, 0, 255, 255] ++ fields

/-- `netip.ParseAddr` followed by `As16`: dispatch on the first `.`, `:` or
`%` of the string; result is the 16-byte form and the zone. -/
def ParseAddr (s : Str) : Option (List Nat × Str) :=
  match s.find? (fun c => c = '.' || c = ':' || c = '%') with
  | some '.' => (parseIPv4Fields s).map (fun f => (v4InV6 f, []))
  | some ':' => parseIPv6 s
  | _ => none

/-- `net.ParseIP`: the 16-byte address, `none` for Go's `nil` (a parse error
or an address with a zone). -/
def ParseIP (s : Str) : Option (List Nat) :=
  match ParseAddr s with
  | none => none
  | some (ip, zone) => if zone ≠ [] then none else some ip

/-- `IP.To4` on a 16-byte address: its last four bytes when it is
IPv4-mapped, otherwise `none`. -/
def To4 (ip : List Nat) : Option (List Nat) :=
  if ip.length = 16 ∧ ip.take 10 = List.replicate 10 0 ∧ ip[10]? = some 255
      ∧ ip[11]? = some 255 then some (ip.drop 12)
  else none

/-! ## generateAllIPs -/

/-- The guard of lines 89-99: the seed parses as an IPv4 address and has four
dot-separated parts. -/
def seedAccepted (baseIP : Str) : Bool :=
  match ParseIP baseIP with
  | none => false
  | some parsedIP =>
    if To4 parsedIP = none then false
    else if (Split baseIP '.').length ≠ 4 then false
    else true

/-- The inner loop of lines 101-104: appends `pfx.1` ... `pfx.255` to `ips`. -/
def appendBlock (ips : List Str) (baseIP : Str) : List Str :=
  let ipParts := Split baseIP '.'
  let pfx := Join (ipParts.take 3) ['.']
  (List.range' 1 255).foldl (fun acc i => acc ++ [Sprintf pfx i]) ips

/-- `generateAllIPs` (lines 86-107), its return value.  The diagnostics of
`printColored` go to the console and do not influence the result. -/
def generateAllIPs (baseIPs : List Str) : List Str :=
  baseIPs.foldl (fun ips baseIP =>
    match ParseIP baseIP with
    | none => ips
    | some parsedIP =>
      if To4 parsedIP = none then ips
      else if (Split baseIP '.').length ≠ 4 then ips
      else appendBlock ips baseIP) []


/-- The addresses one seed contributes: nothing when the guard rejects it,
otherwise `pfx.1` ... `pfx.255` for the seed's first three dot-separated
parts. -/
def seedBlock (baseIP : Str) : List Str :=
  if seedAccepted baseIP then
    (List.range' 1 255).map (Sprintf (Join ((Split baseIP '.').take 3) ['.']))
  else []

/-! ## The vocabulary of the specification for seeds -/

/-- Numeric value of a string of decimal digits. -/
def decimalValue (p : Str) : Nat :=
  p.foldl (fun v c => v * 10 + (c.toNat - 48)) 0

/-- A numeric octet in the range 0-255, written in decimal without a leading
zero. -/
def isOctet (p : Str) : Bool :=
  decide (p ≠ []) && p.all isDigit && decide (p.head? = some '0' → p.length = 1)
    && decide (decimalValue p ≤ 255)

/-- A valid IPv4 dotted-quad: exactly four dot-separated numeric octets, each
0-255. -/
def isDottedQuad (s : Str) : Bool :=
  decide ((Split s '.').length = 4) && (Split s '.').all isOctet

/-- A numeric octet in the range 0-255 in the widest reading: a non-empty
string of decimal digits of value at most 255, leading zeros allowed. -/
def isNumericOctet (p : Str) : Bool :=
  decide (p ≠ []) && p.all isDigit && decide (decimalValue p ≤ 255)

/-- Four dot-separated numeric octets, each 0-255, leading zeros allowed. -/
def isNumericQuad (s : Str) : Bool :=
  decide ((Split s '.').length = 4) && (Split s '.').all isNumericOctet

/-- The text `p1.p2.p3.p4` of four parts. -/
def quadText (p1 p2 p3 p4 : Str) : Str :=
  p1 ++ '.' :: (p2 ++ '.' :: (p3 ++ '.' :: p4))

/-- An IPv4-mapped IPv6 address: sixteen bytes of which the first twelve are
those of `::ffff:0:0/96`. -/
def isIPv4Mapped (ip : List Nat) : Bool :=
  decide (ip.length = 16) && decide (ip.take 12 = [0, 0, 0, 0, 0, 0, 0, 0, 0, 0, 255, 255])

/-- An IPv4-mapped IPv6 literal with a dotted tail: a seed with a colon and a
dot that `net.ParseIP` reads as an IPv4-mapped address (`::ffff:1.2.3.4`,
`0:0:0:0:0:ffff:1.2.3.4`, ...). -/
def isMappedQuad (s : Str) : Bool :=
  decide (':' ∈ s) && decide ('.' ∈ s) &&
    (match ParseIP s with
     | some ip => isIPv4Mapped ip
     | none => false)

/-- The text `a.b.c.d` of four numbers. -/
def dottedQuad (a b c d : Nat) : Str :=
  fmtDecimal a ++ '.' :: (fmtDecimal b ++ '.' :: (fmtDecimal c ++ '.' :: fmtDecimal d))

/-- The string `s` splits at dots into exactly `k` numeric octets. -/
def splitsIntoOctets (k : Nat) (s : Str) : Prop :=
  (Split s '.').length = k ∧ ∀ p ∈ Split s '.', isOctet p = true

/-! ## The worker pool (lines 59-75 and 109-127)

`main` starts `threadCount` workers, hands the addresses out over the
unbuffered channel `ipChan`, closes it and waits for the workers.  The pool is
modelled as an interleaving transition system: a state records where each
goroutine stands, and each transition is one atomic step of one goroutine. -/

/-- Where a worker goroutine stands. -/
inductive WorkerPc where
  /-- At the `select` of line 114. -/
  | selecting
  /-- Inside `reverseLookup` (line 119) on the address of feed index `k`. -/
  | probing (k : Nat)
  /-- Returned (lines 117, 121 or 124); `wg.Done` has run. -/
  | exited
deriving DecidableEq, Repr

/-- Where `main` stands. -/
inductive MainPc where
  /-- In the loop of lines 68-70, about to send the address of index `k`
  (about to leave the loop when `k` is the length of the list). -/
  | feeding (k : Nat)
  /-- After `close(ipChan)` (line 72), inside `wg.Wait()` (line 73). -/
  | waiting
  /-- After `wg.Wait()`: the completion message of line 75 is printed. -/
  | finished
deriving DecidableEq, Repr

/-- One run of the scan: the generated addresses, the thread count read from
the console and, for each feed index, the flag `reverseLookup` returns for
that address (`true` is the critical flag). -/
structure ScanConfig where
  ipList : List Str
  threadCount : Int
  critical : Nat → Bool

/-- State of the scan: the program points of `main` and of the workers,
whether `cancel()` has been called, and the feed indices handed to
`reverseLookup` so far, in order. -/
structure ScanState where
  main : MainPc
  workers : List WorkerPc
  cancelled : Bool
  probes : List Nat
deriving DecidableEq, Repr

/-- The atomic steps.  `w` is the index of the worker that moves. -/
inductive Label where
  /-- The send of line 69 meets the receive of line 115 of worker `w`, which
  then calls `reverseLookup`. -/
  | handoff (w : Nat)
  /-- Worker `w` takes the branch `<-ctx.Done()` (line 123). -/
  | observeDone (w : Nat)
  /-- Worker `w` receives from the closed channel (`ok == false`, line 116). -/
  | recvClosed (w : Nat)
  /-- The `reverseLookup` of worker `w` returns (lines 119-122). -/
  | probeReturn (w : Nat)
  /-- The loop of `main` is over and `close(ipChan)` runs (line 72). -/
  | closeChan
  /-- The call `wg.Wait()` returns (line 73). -/
  | finish
deriving DecidableEq, Repr

/-- The worker a step belongs to, `none` for a step of `main` alone. -/
def Label.worker : Label → Option Nat
  | .handoff w => some w
  | .observeDone w => some w
  | .recvClosed w => some w
  | .probeReturn w => some w
  | .closeChan => none
  | .finish => none

/-- State after lines 59-65: `main` is about to send the first address and
every worker is at its `select`. -/
def initState (cfg : ScanConfig) : ScanState :=
  { main := .feeding 0
    workers := List.replicate cfg.threadCount.toNat .selecting
    cancelled := false
    probes := [] }

/-- One step of the pool; `none` when the step is not enabled.  A `select`
with several ready cases may take any of them, so `handoff` does not look at
`cancelled`. -/
def step (cfg : ScanConfig) (l : Label) (s : ScanState) : Option ScanState :=
  match l with
  | .handoff w =>
    match s.main, s.workers[w]? with
    | .feeding k, some .selecting =>
      if k < cfg.ipList.length then
        some { s with
          main := .feeding (k + 1)
          workers := s.workers.set w (.probing k)
          probes := s.probes ++ [k] }
      else none
    | _, _ => none
  | .observeDone w =>
    match s.workers[w]? with
    | some .selecting =>
      if s.cancelled then some { s with workers := s.workers.set w .exited } else none
    | _ => none
  | .recvClosed w =>
    match s.main, s.workers[w]? with
    | .feeding _, _ => none
    | _, some .selecting => some { s with workers := s.workers.set w .exited }
    | _, _ => none
  | .probeReturn w =>
    match s.workers[w]? with
    | some (.probing k) =>
      if cfg.critical k then
        some { s with cancelled := true, workers := s.workers.set w .exited }
      else some { s with workers := s.workers.set w .selecting }
    | _ => none
  | .closeChan =>
    match s.main with
    | .feeding k => if k < cfg.ipList.length then none else some { s with main := .waiting }
    | _ => none
  | .finish =>
    match s.main with
    | .waiting =>
      if s.workers.all (fun p => decide (p = .exited)) then some { s with main := .finished }
      else none
    | _ => none

/-- A sequence of steps from `s`; `none` when one of them is not enabled. -/
def run (cfg : ScanConfig) : List Label → ScanState → Option ScanState
  | [], s => some s
  | l :: ls, s =>
    match step cfg l s with
    | none => none
    | some s1 => run cfg ls s1

/-- A feed of ten addresses, one worker, and a lookup that returns the
critical flag on the third address only. -/
def hangConfig : ScanConfig :=
  { ipList := (List.range' 1 10).map (dottedQuad 10 0 0)
    threadCount := 1
    critical := fun k => decide (k = 2) }

/-- The states of `hangConfig` that a run can reach. -/
def hangStates : List ScanState :=
  [ ⟨.feeding 0, [.selecting], false, []⟩,
    ⟨.feeding 1, [.probing 0], false, [0]⟩,
    ⟨.feeding 1, [.selecting], false, [0]⟩,
    ⟨.feeding 2, [.probing 1], false, [0, 1]⟩,
    ⟨.feeding 2, [.selecting], false, [0, 1]⟩,
    ⟨.feeding 3, [.probing 2], false, [0, 1, 2]⟩,
    ⟨.feeding 3, [.exited], true, [0, 1, 2]⟩ ]

/-- The scan of the seed file holding `10.0.0.5` with one worker, where the
lookup of the third address returns the critical flag. -/
def seedConfig : ScanConfig :=
  { ipList := generateAllIPs [dottedQuad 10 0 0 5]
    threadCount := 1
    critical := fun k => decide (k = 2) }

/-- Ten addresses, ten workers, and a lookup that returns the critical flag
on the third address only. -/
def wideConfig : ScanConfig :=
  { ipList := (List.range' 1 10).map (dottedQuad 10 0 0)
    threadCount := 10
    critical := fun k => decide (k = 2) }

/-- A run of `wideConfig`: each worker receives one address, the lookups
return in feed order (the third one cancels), `main` closes the channel, the
nine workers still looping leave, and `wg.Wait()` returns. -/
def wideRun : List Label :=
  (List.range 10).map Label.handoff ++ (List.range 10).map Label.probeReturn
    ++ [Label.closeChan]
    ++ ((List.range 10).filter (fun w => decide (w ≠ 2))).map Label.recvClosed
    ++ [Label.finish]

/-- Steps a worker still takes, at most, once the channel is closed. -/
def WorkerPc.stepsLeft : WorkerPc → Nat
  | .selecting => 1
  | .probing _ => 2
  | .exited => 0

/-- Steps the workers still take, at most, once the channel is closed. -/
def stepsLeft (ws : List WorkerPc) : Nat :=
  (ws.map WorkerPc.stepsLeft).sum

/-- What holds of a scan with a single worker whose third lookup is critical:
the feed indices probed so far are `0, 1, ...` in order, `main` stands at the
next one, and the worker is looping with at most two probes done, inside one
of the first three lookups, or gone. -/
def singleWorkerInv (s : ScanState) : Prop :=
  s.probes = List.range s.probes.length
  ∧ (∀ k, s.main = .feeding k → s.probes.length = k)
  ∧ ((s.workers = [.selecting] ∧ s.probes.length ≤ 2)
    ∨ (∃ j, s.workers = [.probing j] ∧ s.probes.length = j + 1 ∧ j ≤ 2)
    ∨ (s.workers = [.exited] ∧ s.probes.length ≤ 3))

/-- Three addresses, two workers, and a lookup that returns the critical flag
on the first address only. -/
def raceConfig : ScanConfig :=
  { ipList := (List.range' 1 3).map (dottedQuad 10 0 0)
    threadCount := 2
    critical := fun k => decide (k = 0) }

/-- An address is on offer: `main` is blocked in the send of line 69. -/
def offering (cfg : ScanConfig) (s : ScanState) : Prop :=
  ∃ k, s.main = .feeding k ∧ k < cfg.ipList.length

/-! ## Console, result file and one lookup (lines 129-196) -/

/-- The constant `RESET`. -/
def RESET : Str := "\x1b[0m".toList

/-- The constant `RED`. -/
def RED : Str := "\x1b[31m".toList

/-- The constant `CYAN`. -/
def CYAN : Str := "\x1b[36m".toList

/-- The constant `GREEN`. -/
def GREEN : Str := "\x1b[32m".toList

/-- The constant `WHITE`. -/
def WHITE : Str := "\x1b[37m".toList

/-- The constant `API_URL` up to the verb `%s`. -/
def API_URL : Str :=
  "https://api.xreverselabs.org/itsuka?apiKey=b2c442f36a149dde9a1542c2e4d1a3ea&ip=".toList

/-- The type `ApiResponse` (lines 32-35). -/
structure ApiResponse where
  Total : Int
  Result : List Str
deriving DecidableEq, Repr

/-- `strconv.Itoa`. -/
def Itoa (n : Int) : Str :=
  if n < 0 then '-' :: Nat.toDigits 10 n.natAbs else Nat.toDigits 10 n.natAbs

/-- One write to the console: a call of `printStatus`, or a `fmt.Printf` of
`saveResults`. -/
inductive Output where
  | status (ip message : Str)
  | printf (text : Str)
deriving DecidableEq, Repr

/-- The text a console write shows (line 177 for `printStatus`). -/
def Output.text : Output → Str
  | .status ip message =>
    WHITE ++ "Checking ==> ".toList ++ CYAN ++ ip ++ WHITE ++ " => ".toList ++ message ++ RESET
      ++ ['\n']
  | .printf text => text

/-- Whether a console write is a line of `printStatus`. -/
def Output.isStatus : Output → Bool
  | .status _ _ => true
  | .printf _ => false

/-- What the program has done to the outside: the console writes in order,
the content of `Resultz.txt` (`none` while the file does not exist) and the
arguments of the calls of `saveResults` so far. -/
structure World where
  console : List Output
  file : Option Str
  saveCalls : List (List Str)
deriving DecidableEq, Repr

/-- The file system as one call of `saveResults` meets it: the error of
`os.OpenFile`, if any, and for the `j`-th `WriteString` of the call either
`none` (all bytes written) or the number of bytes written and the error. -/
structure FileEnv where
  openError : Option Str
  writeError : Nat → Option (Nat × Str)

/-- The network and decoder as one call of `reverseLookup` meets them: the
error of `http.NewRequest` for a URL, the result of `client.Do`, and
`json.Unmarshal` into an `ApiResponse`. -/
structure Response where
  StatusCode : Int
  Status : Str
  /-- Result of `ioutil.ReadAll(resp.Body)`. -/
  body : Except Str Str

/-- The environment of one call of `reverseLookup`. -/
structure LookupEnv where
  newRequest : Str → Option Str
  clientDo : Str → Except Str Response
  unmarshal : Str → Except Str ApiResponse
  fs : FileEnv

/-- `printStatus` (lines 174-178): one line on the console. -/
def printStatus (ip message : Str) (w : World) : World :=
  { w with console := w.console ++ [.status ip message] }

/-- The loop of lines 191-195 on an open file in append mode: `j` counts the
writes, `content` is the file, `out` the console. -/
def writeDomains (env : FileEnv) : List Str → Nat → Str → List Output → Str × List Output
  | [], _, content, out => (content, out)
  | domain :: rest, j, content, out =>
    match env.writeError j with
    | none => writeDomains env rest (j + 1) (content ++ (domain ++ ['\n'])) out
    | some (n, err) =>
      writeDomains env rest (j + 1) (content ++ (domain ++ ['\n']).take n)
        (out ++ [.printf (RED ++ "Error writing domain: ".toList ++ err ++ RESET ++ ['\n'])])

/-- `saveResults` (lines 180-196).  `os.OpenFile` with
`O_APPEND|O_CREATE|O_WRONLY` creates a missing file and never truncates. -/
def saveResults (env : FileEnv) (domains : List Str) (w : World) : World :=
  match env.openError with
  | some err =>
    { w with
      console := w.console
        ++ [.printf (RED ++ "Error saving results: ".toList ++ err ++ RESET ++ ['\n'])]
      saveCalls := w.saveCalls ++ [domains] }
  | none =>
    { console := (writeDomains env domains 0 (w.file.getD []) w.console).2
      file := some (writeDomains env domains 0 (w.file.getD []) w.console).1
      saveCalls := w.saveCalls ++ [domains] }

/-- `http.StatusOK`. -/
def StatusOK : Int := 200

/-- `reverseLookup` (lines 129-172): the returned flag and the world after. -/
def reverseLookup (env : LookupEnv) (ip : Str) (w : World) : Bool × World :=
  let url := API_URL ++ ip
  match env.newRequest url with
  | some err => (false, printStatus ip (RED ++ "Error: ".toList ++ err) w)
  | none =>
    match env.clientDo url with
    | .error err => (false, printStatus ip (RED ++ "Error: ".toList ++ err) w)
    | .ok resp =>
      if resp.StatusCode ≠ StatusOK then
        (false, printStatus ip (RED ++ "HTTP Error: ".toList ++ resp.Status) w)
      else
        match resp.body with
        | .error err => (false, printStatus ip (RED ++ "Error: ".toList ++ err) w)
        | .ok body =>
          match env.unmarshal body with
          | .error err =>
            (true, printStatus ip (RED ++ "Error parsing JSON: ".toList ++ err) w)
          | .ok apiResponse =>
            if apiResponse.Total = 0 then
              (false, printStatus ip (RED ++ "NO".toList) w)
            else
              (false, saveResults env.fs apiResponse.Result
                (printStatus ip (GREEN ++ Itoa apiResponse.Total ++ " DOMAINS".toList) w))

/-- The lines `saveResults` appends for a list of domains. -/
def domainLines (domains : List Str) : Str :=
  (domains.map (fun d => d ++ ['\n'])).flatten

/-- A file system on which the open and every write succeed. -/
def okFs : FileEnv :=
  { openError := none, writeError := fun _ => none }

/-- A lookup environment answering status 200 with the given body, decoded
by `decode`. -/
def okEnv (body : Str) (decode : Str → Except Str ApiResponse) : LookupEnv :=
  { newRequest := fun _ => none
    clientDo := fun _ => .ok ⟨200, "200 OK".toList, .ok body⟩
    unmarshal := decode
    fs := okFs }

/-- The world before anything has been printed or saved. -/
def emptyWorld : World :=
  { console := [], file := none, saveCalls := [] }

/-- A decoder that reads every body as five matches with the result list
`a.example` and the empty string. -/
def sampleDecode : Str → Except Str ApiResponse :=
  fun _ => .ok ⟨5, ["a.example".toList, []]⟩

/-- A lookup environment whose server answers with the given status and an
undecodable body. -/
def badBodyEnv (code : Int) : LookupEnv :=
  { newRequest := fun _ => none
    clientDo := fun _ => .ok ⟨code, [], .ok "<html>".toList⟩
    unmarshal := fun _ => .error "invalid character".toList
    fs := okFs }

/-! # Theorems -/

/-! ## generateAllIPs as a concatenation of blocks -/

theorem foldl_snoc_map {α β : Type} (g : α → β) (l : List α) (acc : List β) :
    l.foldl (fun acc i => acc ++ [g i]) acc = acc ++ l.map g := by
  induction l generalizing acc with
  | nil => simp
  | cons x xs ih => simp [ih]

theorem appendBlock_eq (ips : List Str) (baseIP : Str) :
    appendBlock ips baseIP =
      ips ++ (List.range' 1 255).map (Sprintf (Join ((Split baseIP '.').take 3) ['.'])) := by
  unfold appendBlock
  exact foldl_snoc_map _ _ _

theorem generateStep_eq (ips : List Str) (baseIP : Str) :
    (match ParseIP baseIP with
      | none => ips
      | some parsedIP =>
        if To4 parsedIP = none then ips
        else if (Split baseIP '.').length ≠ 4 then ips
        else appendBlock ips baseIP) = ips ++ seedBlock baseIP := by
  unfold seedBlock seedAccepted
  cases h : ParseIP baseIP with
  | none => simp
  | some ip =>
    by_cases h4 : To4 ip = none
    · simp [h4]
    · by_cases hl : (Split baseIP '.').length = 4
      · simp [h4, hl, appendBlock_eq]
      · simp [h4, hl]

theorem foldl_generate (l : List Str) (acc : List Str) :
    l.foldl (fun ips baseIP =>
      match ParseIP baseIP with
      | none => ips
      | some parsedIP =>
        if To4 parsedIP = none then ips
        else if (Split baseIP '.').length ≠ 4 then ips
        else appendBlock ips baseIP) acc = acc ++ l.flatMap seedBlock := by
  induction l generalizing acc with
  | nil => simp
  | cons x xs ih =>
    rw [List.foldl_cons, generateStep_eq, ih]
    simp [List.flatMap_cons]

theorem generateAllIPs_eq_flatMap (l : List Str) :
    generateAllIPs l = l.flatMap seedBlock := by
  unfold generateAllIPs
  rw [foldl_generate]
  simp

theorem generateAllIPs_singleton (s : Str) : generateAllIPs [s] = seedBlock s := by
  rw [generateAllIPs_eq_flatMap]
  simp [List.flatMap_cons]

theorem seedBlock_length (s : Str) (h : seedAccepted s = true) : (seedBlock s).length = 255 := by
  simp [seedBlock, h]

theorem seedBlock_rejected (s : Str) (h : seedAccepted s = false) : seedBlock s = [] := by
  simp [seedBlock, h]

/-- C3: `generateAllIPs` distributes over concatenation of seed lists, so its
output is the concatenation of the per-seed blocks in input order, and a seed
listed twice contributes its block twice (no deduplication). -/
theorem generateAllIPs_append (xs ys : List Str) :
    generateAllIPs (xs ++ ys) = generateAllIPs xs ++ generateAllIPs ys
    ∧ generateAllIPs xs = xs.flatMap (fun s => generateAllIPs [s])
    ∧ ∀ s : Str, generateAllIPs [s, s] = generateAllIPs [s] ++ generateAllIPs [s] := by
  refine ⟨?_, ?_, ?_⟩
  · simp only [generateAllIPs_eq_flatMap, List.flatMap_append]
  · rw [generateAllIPs_eq_flatMap]
    congr 1
    funext s
    exact (generateAllIPs_singleton s).symm
  · intro s
    simp [generateAllIPs_eq_flatMap, List.flatMap_cons]

/-! ## Characters and octets -/

theorem isDigit_iff (c : Char) : isDigit c = true ↔ 48 ≤ c.toNat ∧ c.toNat ≤ 57 := by
  unfold isDigit
  simp only [Bool.and_eq_true, decide_eq_true_eq, Char.le_def]
  rfl

theorem char_eq_zero (c : Char) (h : c.toNat = 48) : c = '0' := by
  have := Char.ofNat_toNat c
  rw [h] at this
  exact this.symm

theorem isDigit_ne_dot (c : Char) (h : isDigit c = true) : c ≠ '.' := by
  rintro rfl
  revert h
  decide

theorem isDigit_ne_colon (c : Char) (h : isDigit c = true) : c ≠ ':' := by
  rintro rfl
  revert h
  decide

theorem isDigit_ne_percent (c : Char) (h : isDigit c = true) : c ≠ '%' := by
  rintro rfl
  revert h
  decide

theorem isOctet_iff (p : Str) :
    isOctet p = true ↔
      p ≠ [] ∧ (∀ c ∈ p, isDigit c = true) ∧ (p.head? = some '0' → p.length = 1)
        ∧ decimalValue p ≤ 255 := by
  simp only [isOctet, Bool.and_eq_true, decide_eq_true_eq, List.all_eq_true, and_assoc]

theorem decimalValue_snoc (p : Str) (c : Char) :
    decimalValue (p ++ [c]) = decimalValue p * 10 + (c.toNat - 48) := by
  simp [decimalValue, List.foldl_append]

theorem foldl_decimal_ge (q : Str) (v : Nat) :
    v ≤ q.foldl (fun v c => v * 10 + (c.toNat - 48)) v := by
  induction q generalizing v with
  | nil => simp
  | cons c q ih =>
    simp only [List.foldl_cons]
    exact le_trans (by omega) (ih _)

theorem decimalValue_append_ge (p q : Str) : decimalValue p ≤ decimalValue (p ++ q) := by
  simp only [decimalValue, List.foldl_append]
  exact foldl_decimal_ge _ _

/-- A non-empty prefix of an octet is an octet. -/
theorem isOctet_of_append (p q : Str) (hp : p ≠ []) (h : isOctet (p ++ q) = true) :
    isOctet p = true := by
  rw [isOctet_iff] at h ⊢
  obtain ⟨_, hd, hz, hv⟩ := h
  refine ⟨hp, fun c hc => hd c (List.mem_append_left _ hc), ?_, ?_⟩
  · intro h0
    cases p with
    | nil => exact absurd rfl hp
    | cons a p =>
      have := hz (by simpa using h0)
      simp only [List.cons_append, List.length_cons, List.length_append] at this
      simp only [List.length_cons]
      omega
  · exact le_trans (decimalValue_append_ge p q) hv

theorem isOctet_single (c : Char) (h : isDigit c = true) : isOctet [c] = true := by
  rw [isOctet_iff]
  have := (isDigit_iff c).1 h
  refine ⟨by simp, by simpa using h, by simp, ?_⟩
  simp [decimalValue]
  omega

theorem isOctet_head_zero (cur : Str) (h : isOctet cur = true) :
    cur.head? = some '0' ↔ (cur.length = 1 ∧ decimalValue cur = 0) := by
  rw [isOctet_iff] at h
  obtain ⟨hne, hd, hz, _⟩ := h
  constructor
  · intro h0
    have hl := hz h0
    cases cur with
    | nil => exact absurd rfl hne
    | cons a t =>
      have ht : t = [] := by
        cases t with
        | nil => rfl
        | cons b t => simp at hl
      subst ht
      simp at h0
      subst h0
      exact ⟨rfl, by decide⟩
  · rintro ⟨hl, hv⟩
    cases cur with
    | nil => exact absurd rfl hne
    | cons a t =>
      have ht : t = [] := by
        cases t with
        | nil => rfl
        | cons b t => simp at hl
      subst ht
      have hda := (isDigit_iff a).1 (hd a (by simp))
      simp [decimalValue] at hv
      have : a = '0' := char_eq_zero a (by omega)
      simp [this]

theorem isOctet_snoc (cur : Str) (c : Char) (h : isOctet cur = true) (hc : isDigit c = true) :
    isOctet (cur ++ [c]) = true ↔
      ¬ (cur.length = 1 ∧ decimalValue cur = 0)
        ∧ decimalValue cur * 10 + (c.toNat - 48) ≤ 255 := by
  have hz := isOctet_head_zero cur h
  have h1 := (isOctet_iff cur).1 h
  obtain ⟨hne, hd, _, _⟩ := h1
  rw [isOctet_iff, decimalValue_snoc, ← hz]
  have hhead : (cur ++ [c]).head? = cur.head? := by
    cases cur with
    | nil => exact absurd rfl hne
    | cons a t => simp
  have hlen : (cur ++ [c]).length ≠ 1 := by
    cases cur with
    | nil => exact absurd rfl hne
    | cons a t => simp
  rw [hhead]
  constructor
  · rintro ⟨_, _, hz1, hv⟩
    exact ⟨fun h0 => hlen (hz1 h0), hv⟩
  · rintro ⟨h0, hv⟩
    refine ⟨by simp, ?_, fun h => absurd h h0, hv⟩
    intro x hx
    rcases List.mem_append.1 hx with hx | hx
    · exact hd x hx
    · simp at hx
      subst hx
      exact hc

/-! ## strings.Split -/

theorem Split_ne_nil (s : Str) (sep : Char) : Split s sep ≠ [] := by
  induction s with
  | nil => simp [Split]
  | cons c rest ih =>
    unfold Split
    split
    · simp
    · split <;> simp

theorem Split_cons_sep (s : Str) (sep : Char) : Split (sep :: s) sep = [] :: Split s sep := by
  simp [Split]

theorem Split_cons_ne (c : Char) (s : Str) (sep : Char) (h : c ≠ sep) :
    Split (c :: s) sep = (c :: (Split s sep).headD []) :: (Split s sep).tail := by
  have hne := Split_ne_nil s sep
  rw [Split, if_neg h]
  cases hs : Split s sep with
  | nil => exact absurd hs hne
  | cons p ps => simp

theorem Split_append_nosep (x s : Str) (sep : Char) (hx : ∀ c ∈ x, c ≠ sep) :
    Split (x ++ s) sep = (x ++ (Split s sep).headD []) :: (Split s sep).tail := by
  induction x with
  | nil =>
    have hne := Split_ne_nil s sep
    cases hs : Split s sep with
    | nil => exact absurd hs hne
    | cons p ps => simp [hs]
  | cons a x ih =>
    have ha : a ≠ sep := hx a (by simp)
    have ih1 := ih (fun c hc => hx c (by simp [hc]))
    rw [List.cons_append, Split_cons_ne a _ sep ha, ih1]
    simp

theorem Split_nosep (x : Str) (sep : Char) (hx : ∀ c ∈ x, c ≠ sep) : Split x sep = [x] := by
  have := Split_append_nosep x [] sep hx
  simpa [Split] using this

theorem Split_append_sep (x s : Str) (sep : Char) (hx : ∀ c ∈ x, c ≠ sep) :
    Split (x ++ sep :: s) sep = x :: Split s sep := by
  rw [Split_append_nosep x _ sep hx, Split_cons_sep]
  simp

theorem mem_Split (s : Str) (sep c : Char) (hc : c ∈ s) (hne : c ≠ sep) :
    ∃ p ∈ Split s sep, c ∈ p := by
  induction s with
  | nil => simp at hc
  | cons a s ih =>
    by_cases ha : a = sep
    · subst ha
      rw [Split_cons_sep]
      have hc1 : c ∈ s := by
        rcases List.mem_cons.1 hc with h | h
        · exact absurd h hne
        · exact h
      obtain ⟨p, hp, hcp⟩ := ih hc1
      exact ⟨p, List.mem_cons_of_mem _ hp, hcp⟩
    · rw [Split_cons_ne a s sep ha]
      rcases List.mem_cons.1 hc with h | h
      · exact ⟨_, List.mem_cons_self _ _, by simp [h]⟩
      · obtain ⟨p, hp, hcp⟩ := ih h
        have hsne := Split_ne_nil s sep
        cases hs : Split s sep with
        | nil => exact absurd hs hsne
        | cons q qs =>
          rw [hs] at hp
          rcases List.mem_cons.1 hp with h1 | h1
          · subst h1
            exact ⟨a :: p, by simp, by simp [hcp]⟩
          · exact ⟨p, by simp [h1], hcp⟩

/-! ## netip.parseIPv4Fields accepts exactly the dotted quads -/

theorem isOctet_nil : isOctet [] = false := by decide

theorem octet_nosep (cur : Str) (h : isOctet cur = true) : ∀ c ∈ cur, c ≠ '.' := by
  intro c hc
  exact isDigit_ne_dot c (((isOctet_iff cur).1 h).2.1 c hc)

/-- The first piece of `x ++ c :: s` contains `c` when it is not a dot. -/
theorem not_splitsIntoOctets_of_bad (k : Nat) (x : Str) (c : Char) (s : Str)
    (hx : ∀ a ∈ x, a ≠ '.') (hc : isDigit c = false) (hdot : c ≠ '.') :
    ¬ splitsIntoOctets k (x ++ c :: s) := by
  rintro ⟨_, hall⟩
  have hsp : Split (x ++ c :: s) '.' = Split ((x ++ [c]) ++ s) '.' := by simp
  rw [hsp, Split_append_nosep (x ++ [c]) s '.'] at hall
  · have h1 := hall _ (List.mem_cons_self _ _)
    have h2 := ((isOctet_iff _).1 h1).2.1 c (by simp)
    rw [hc] at h2
    exact Bool.noConfusion h2
  · intro a ha
    rcases List.mem_append.1 ha with h | h
    · exact hx a h
    · simp at h
      subst h
      exact hdot

/-- The loop of `parseIPv4Fields`, in the middle of an octet (`cur` read so
far) and at the start of an octet, succeeds exactly on the strings that
complete the remaining octets. -/
theorem parseIPv4Loop_correct (s : Str) :
    (∀ (cur : Str) (prev : Option Char) (val digLen pos : Nat) (fields : List Nat),
      isOctet cur = true → (∃ p, prev = some p ∧ isDigit p = true) → pos ≤ 3 →
      val = decimalValue cur → digLen = cur.length →
      ((parseIPv4Loop s prev val digLen pos fields).isSome = true ↔
        splitsIntoOctets (4 - pos) (cur ++ s)))
    ∧ (∀ (prev : Option Char) (pos : Nat) (fields : List Nat),
      (prev = none ∨ prev = some '.') → pos ≤ 3 → (s ≠ [] ∨ pos < 3) →
      ((parseIPv4Loop s prev 0 0 pos fields).isSome = true ↔
        splitsIntoOctets (4 - pos) s)) := by
  induction s with
  | nil =>
    constructor
    · intro cur prev val digLen pos fields hcur _ hpos _ _
      have hsp : Split (cur ++ []) '.' = [cur] := by
        rw [List.append_nil]
        exact Split_nosep cur '.' (octet_nosep cur hcur)
      simp only [parseIPv4Loop, splitsIntoOctets, hsp]
      by_cases h3 : pos < 3
      · simp [h3]
        omega
      · simp [h3, hcur]
        omega
    · intro prev pos fields _ _ hs
      have h3 : pos < 3 := by
        rcases hs with h | h
        · exact absurd rfl h
        · exact h
      simp only [parseIPv4Loop, splitsIntoOctets, Split, h3]
      simp [isOctet_nil]
  | cons c rest ih =>
    obtain ⟨ihA, ihB⟩ := ih
    constructor
    · intro cur prev val digLen pos fields hcur hprev hpos hval hlen
      have hnd := octet_nosep cur hcur
      by_cases hc : isDigit c = true
      · have hsn := isOctet_snoc cur c hcur hc
        have happ : cur ++ c :: rest = (cur ++ [c]) ++ rest := by simp
        by_cases hoct : isOctet (cur ++ [c]) = true
        · obtain ⟨h1, h2⟩ := hsn.1 hoct
          have hstep : parseIPv4Loop (c :: rest) prev val digLen pos fields =
              parseIPv4Loop rest (some c) (val * 10 + (c.toNat - 48)) (digLen + 1) pos fields := by
            rw [parseIPv4Loop, if_pos hc, if_neg (by rw [hval, hlen]; exact h1),
              if_neg (by rw [hval]; omega)]
          rw [hstep, happ]
          exact ihA (cur ++ [c]) (some c) _ _ pos fields hoct ⟨c, rfl, hc⟩ hpos
            (by rw [decimalValue_snoc, hval]) (by simp [hlen])
        · have hnone : parseIPv4Loop (c :: rest) prev val digLen pos fields = none := by
            rw [parseIPv4Loop, if_pos hc]
            by_cases h1 : digLen = 1 ∧ val = 0
            · rw [if_pos h1]
            · rw [if_neg h1]
              have h2 : ¬ decimalValue cur * 10 + (c.toNat - 48) ≤ 255 := by
                intro h2
                exact hoct (hsn.2 ⟨by rw [← hval, ← hlen]; exact h1, h2⟩)
              rw [if_pos (by rw [hval]; omega)]
          rw [hnone]
          constructor
          · intro h
            simp at h
          · rintro ⟨_, hall⟩
            exfalso
            rw [happ, Split_append_nosep (cur ++ [c]) rest '.'] at hall
            · have h1 := hall _ (List.mem_cons_self _ _)
              exact hoct (isOctet_of_append _ _ (by simp) h1)
            · intro a ha
              rcases List.mem_append.1 ha with h | h
              · exact hnd a h
              · simp at h
                subst h
                exact isDigit_ne_dot a hc
      · have hc0 : isDigit c = false := by simpa using hc
        by_cases hdot : c = '.'
        · subst hdot
          obtain ⟨p, hp, hpd⟩ := hprev
          have hp1 : prev ≠ none := by simp [hp]
          have hp2 : prev ≠ some '.' := by
            rw [hp]
            intro h
            injection h with h
            exact isDigit_ne_dot p hpd h
          have hsp : Split (cur ++ '.' :: rest) '.' = cur :: Split rest '.' :=
            Split_append_sep cur rest '.' hnd
          by_cases hrest : rest = []
          · subst hrest
            have hnone : parseIPv4Loop ['.'] prev val digLen pos fields = none := by
              rw [parseIPv4Loop, if_neg hc]
              simp
            rw [hnone]
            simp only [splitsIntoOctets, hsp, Split]
            simp [isOctet_nil]
          · by_cases h3 : pos = 3
            · have hnone : parseIPv4Loop ('.' :: rest) prev val digLen pos fields = none := by
                rw [parseIPv4Loop, if_neg hc]
                simp [h3]
              rw [hnone]
              simp only [splitsIntoOctets, hsp, h3]
              have := Split_ne_nil rest '.'
              cases hs : Split rest '.' with
              | nil => exact absurd hs this
              | cons q qs => simp
            · have hstep : parseIPv4Loop ('.' :: rest) prev val digLen pos fields =
                  parseIPv4Loop rest (some '.') 0 0 (pos + 1) (fields ++ [val]) := by
                rw [parseIPv4Loop, if_neg hc]
                simp [hp1, hp2, hrest, h3]
              rw [hstep, ihB (some '.') (pos + 1) _ (Or.inr rfl) (by omega) (Or.inl hrest)]
              simp only [splitsIntoOctets, hsp, List.length_cons, List.mem_cons, forall_eq_or_imp,
                hcur, true_and]
              have e : 4 - (pos + 1) + 1 = 4 - pos := by omega
              rw [← e]
              simp
        · have hnone : parseIPv4Loop (c :: rest) prev val digLen pos fields = none := by
            rw [parseIPv4Loop, if_neg hc, if_neg hdot]
          rw [hnone]
          constructor
          · intro h
            simp at h
          · intro h
            exact absurd h (not_splitsIntoOctets_of_bad _ cur c rest hnd hc0 hdot)
    · intro prev pos fields hprev hpos _
      by_cases hc : isDigit c = true
      · have hd := (isDigit_iff c).1 hc
        have hstep : parseIPv4Loop (c :: rest) prev 0 0 pos fields =
            parseIPv4Loop rest (some c) (0 * 10 + (c.toNat - 48)) (0 + 1) pos fields := by
          rw [parseIPv4Loop, if_pos hc, if_neg (by simp), if_neg (by omega)]
        rw [hstep]
        have := ihA [c] (some c) (0 * 10 + (c.toNat - 48)) (0 + 1) pos fields
          (isOctet_single c hc) ⟨c, rfl, hc⟩ hpos (by simp [decimalValue]) (by simp)
        simpa using this
      · have hc0 : isDigit c = false := by simpa using hc
        have hnone : parseIPv4Loop (c :: rest) prev 0 0 pos fields = none := by
          rw [parseIPv4Loop, if_neg hc]
          by_cases hdot : c = '.'
          · rw [if_pos hdot]
            rcases hprev with h | h <;> simp [h]
          · rw [if_neg hdot]
        rw [hnone]
        constructor
        · intro h
          simp at h
        · intro h
          exfalso
          by_cases hdot : c = '.'
          · subst hdot
            obtain ⟨_, hall⟩ := h
            rw [Split_cons_sep] at hall
            have := hall [] (List.mem_cons_self _ _)
            rw [isOctet_nil] at this
            exact Bool.noConfusion this
          · exact not_splitsIntoOctets_of_bad _ [] c rest (by simp) hc0 hdot h

theorem isDottedQuad_iff (s : Str) : isDottedQuad s = true ↔ splitsIntoOctets 4 s := by
  simp [isDottedQuad, splitsIntoOctets]

theorem parseIPv4Fields_isSome_iff (s : Str) :
    (parseIPv4Fields s).isSome = true ↔ isDottedQuad s = true := by
  rw [isDottedQuad_iff]
  exact (parseIPv4Loop_correct s).2 none 0 [] (Or.inl rfl) (by omega) (Or.inr (by omega))

theorem parseIPv4Loop_length (s : Str) :
    ∀ (prev : Option Char) (val digLen pos : Nat) (fields r : List Nat),
      parseIPv4Loop s prev val digLen pos fields = some r → pos ≤ 3 →
      r.length + pos = fields.length + 4 := by
  induction s with
  | nil =>
    intro prev val digLen pos fields r h hpos
    simp only [parseIPv4Loop] at h
    split at h
    · exact Option.noConfusion h
    · injection h with h
      subst h
      simp
      omega
  | cons c rest ih =>
    intro prev val digLen pos fields r h hpos
    rw [parseIPv4Loop] at h
    split at h
    · split at h
      · exact Option.noConfusion h
      · split at h
        · exact Option.noConfusion h
        · exact ih _ _ _ _ _ _ h hpos
    · split at h
      · split at h
        · exact Option.noConfusion h
        · split at h
          · exact Option.noConfusion h
          · have := ih _ _ _ _ _ _ h (by omega)
            simp at this
            omega
      · exact Option.noConfusion h

theorem parseIPv4Fields_length (s : Str) (f : List Nat) (h : parseIPv4Fields s = some f) :
    f.length = 4 := by
  have := parseIPv4Loop_length s none 0 0 0 [] f h (by omega)
  simpa using this

theorem To4_v4InV6 (f : List Nat) (h : f.length = 4) : To4 (v4InV6 f) ≠ none := by
  simp [To4, v4InV6, h, List.replicate]

/-! ## The guard of generateAllIPs on seeds without a colon -/

theorem isDottedQuad_chars (s : Str) (h : isDottedQuad s = true) :
    ∀ c ∈ s, c = '.' ∨ isDigit c = true := by
  intro c hc
  by_cases hdot : c = '.'
  · exact Or.inl hdot
  · obtain ⟨p, hp, hcp⟩ := mem_Split s '.' c hc hdot
    have := ((isDottedQuad_iff s).1 h).2 p hp
    exact Or.inr (((isOctet_iff p).1 this).2.1 c hcp)

theorem isDottedQuad_has_dot (s : Str) (h : isDottedQuad s = true) : '.' ∈ s := by
  by_contra hno
  have hsp : Split s '.' = [s] := Split_nosep s '.' (fun c hc hcd => hno (hcd ▸ hc))
  have := ((isDottedQuad_iff s).1 h).1
  rw [hsp] at this
  simp at this

theorem find_first_of_isDottedQuad (s : Str) (h : isDottedQuad s = true) :
    s.find? (fun c => c = '.' || c = ':' || c = '%') = some '.' := by
  have hch := isDottedQuad_chars s h
  have hdot := isDottedQuad_has_dot s h
  cases hf : s.find? (fun c => c = '.' || c = ':' || c = '%') with
  | none =>
    rw [List.find?_eq_none] at hf
    have := hf '.' hdot
    simp at this
  | some x =>
    have hx := List.find?_some hf
    have hmem := List.mem_of_find?_eq_some hf
    rcases hch x hmem with h1 | h1
    · rw [h1]
    · exfalso
      have a1 := isDigit_ne_dot x h1
      have a2 := isDigit_ne_colon x h1
      have a3 := isDigit_ne_percent x h1
      simp [a1, a2, a3] at hx

theorem seedAccepted_of_isDottedQuad (s : Str) (h : isDottedQuad s = true) :
    seedAccepted s = true := by
  have hf := find_first_of_isDottedQuad s h
  have hp := (parseIPv4Fields_isSome_iff s).2 h
  obtain ⟨f, hfeq⟩ := Option.isSome_iff_exists.1 hp
  have hlen := parseIPv4Fields_length s f hfeq
  have h4 := To4_v4InV6 f hlen
  have hsplit := ((isDottedQuad_iff s).1 h).1
  simp [seedAccepted, ParseIP, ParseAddr, hf, hfeq, h4, hsplit]

theorem ParseAddr_other (s : Str) (x : Char)
    (hf : s.find? (fun c => c = '.' || c = ':' || c = '%') = some x)
    (hx : x ≠ '.') (hx2 : x ≠ ':') : ParseAddr s = none := by
  unfold ParseAddr
  rw [hf]
  split
  · rename_i heq
    injection heq with heq
    exact absurd heq hx
  · rename_i heq
    injection heq with heq
    exact absurd heq hx2
  · rfl

theorem isDottedQuad_of_seedAccepted (s : Str) (hcolon : ':' ∉ s)
    (h : seedAccepted s = true) : isDottedQuad s = true := by
  unfold seedAccepted ParseIP at h
  cases hf : s.find? (fun c => c = '.' || c = ':' || c = '%') with
  | none => simp [ParseAddr, hf] at h
  | some x =>
    have hmem := List.mem_of_find?_eq_some hf
    by_cases hx : x = '.'
    · subst hx
      unfold ParseAddr at h
      rw [hf] at h
      apply (parseIPv4Fields_isSome_iff s).1
      cases hp : parseIPv4Fields s with
      | none => simp [hp] at h
      | some f => rfl
    · by_cases hx2 : x = ':'
      · subst hx2
        exact absurd hmem hcolon
      · rw [ParseAddr_other s x hf hx hx2] at h
        simp at h

/-- On seeds without a colon the guard of `generateAllIPs` accepts exactly
the valid dotted quads. -/
theorem seedAccepted_iff_isDottedQuad (s : Str) (hcolon : ':' ∉ s) :
    seedAccepted s = true ↔ isDottedQuad s = true :=
  ⟨isDottedQuad_of_seedAccepted s hcolon, seedAccepted_of_isDottedQuad s⟩

/-! ## Seeds written from four numbers -/

set_option maxRecDepth 100000 in
theorem isOctet_fmtDecimal : ∀ a < 256, isOctet (fmtDecimal a) = true := by
  decide

set_option maxRecDepth 100000 in
theorem fmtDecimal_host_ne : ∀ i < 256, 1 ≤ i →
    fmtDecimal 0 ≠ fmtDecimal i ∧ fmtDecimal 256 ≠ fmtDecimal i := by
  decide

theorem Split_dottedQuad (a b c d : Nat) (ha : a < 256) (hb : b < 256) (hc : c < 256)
    (hd : d < 256) :
    Split (dottedQuad a b c d) '.' = [fmtDecimal a, fmtDecimal b, fmtDecimal c, fmtDecimal d] := by
  have na := octet_nosep _ (isOctet_fmtDecimal a ha)
  have nb := octet_nosep _ (isOctet_fmtDecimal b hb)
  have nc := octet_nosep _ (isOctet_fmtDecimal c hc)
  have nd := octet_nosep _ (isOctet_fmtDecimal d hd)
  unfold dottedQuad
  rw [Split_append_sep _ _ _ na, Split_append_sep _ _ _ nb, Split_append_sep _ _ _ nc,
    Split_nosep _ _ nd]

theorem isDottedQuad_dottedQuad (a b c d : Nat) (ha : a < 256) (hb : b < 256) (hc : c < 256)
    (hd : d < 256) : isDottedQuad (dottedQuad a b c d) = true := by
  rw [isDottedQuad_iff]
  unfold splitsIntoOctets
  rw [Split_dottedQuad a b c d ha hb hc hd]
  refine ⟨rfl, ?_⟩
  intro p hp
  simp only [List.mem_cons, List.mem_singleton, List.not_mem_nil, or_false] at hp
  rcases hp with h | h | h | h <;> subst h
  · exact isOctet_fmtDecimal a ha
  · exact isOctet_fmtDecimal b hb
  · exact isOctet_fmtDecimal c hc
  · exact isOctet_fmtDecimal d hd

theorem seedBlock_dottedQuad (a b c d : Nat) (ha : a < 256) (hb : b < 256) (hc : c < 256)
    (hd : d < 256) :
    seedBlock (dottedQuad a b c d) = (List.range' 1 255).map (dottedQuad a b c) := by
  unfold seedBlock
  rw [seedAccepted_of_isDottedQuad _ (isDottedQuad_dottedQuad a b c d ha hb hc hd),
    Split_dottedQuad a b c d ha hb hc hd]
  simp only [if_true]
  apply List.map_congr_left
  intro i _
  simp [Sprintf, Join, dottedQuad, List.intercalate]

theorem dottedQuad_host_inj (a b c i j : Nat) (h : dottedQuad a b c i = dottedQuad a b c j) :
    fmtDecimal i = fmtDecimal j := by
  unfold dottedQuad at h
  have h1 := List.append_cancel_left h
  injection h1 with _ h1
  have h2 := List.append_cancel_left h1
  injection h2 with _ h2
  have h3 := List.append_cancel_left h2
  injection h3

/-! ## Seeds written as four parts -/

/-- The first piece of a split, and the split of what follows it. -/
theorem Split_eq_cons (sep : Char) (s : Str) :
    ∀ (p : Str) (ps : List Str), Split s sep = p :: ps →
      (∀ c ∈ p, c ≠ sep)
      ∧ ((ps = [] ∧ s = p) ∨ (∃ rest, s = p ++ sep :: rest ∧ Split rest sep = ps)) := by
  induction s with
  | nil =>
    intro p ps h
    simp only [Split] at h
    injection h with h1 h2
    subst h1
    subst h2
    exact ⟨by simp, Or.inl ⟨rfl, rfl⟩⟩
  | cons c rest ih =>
    intro p ps h
    by_cases hc : c = sep
    · subst hc
      rw [Split_cons_sep] at h
      injection h with h1 h2
      subst h1
      exact ⟨by simp, Or.inr ⟨rest, rfl, h2⟩⟩
    · rw [Split_cons_ne c rest sep hc] at h
      have hne := Split_ne_nil rest sep
      cases hs : Split rest sep with
      | nil => exact absurd hs hne
      | cons q qs =>
        rw [hs] at h
        simp only [List.headD_cons, List.tail_cons] at h
        injection h with h1 h2
        subst h1
        subst h2
        obtain ⟨hq, hrest⟩ := ih q qs hs
        refine ⟨?_, ?_⟩
        · intro x hx
          rcases List.mem_cons.1 hx with h | h
          · rw [h]
            exact hc
          · exact hq x h
        · rcases hrest with ⟨h1, h2⟩ | ⟨r, h1, h2⟩
          · exact Or.inl ⟨h1, by rw [h2]⟩
          · exact Or.inr ⟨r, by rw [h1]; rfl, h2⟩

/-- A string that splits into four parts is those parts joined by dots. -/
theorem eq_quadText_of_Split (s p1 p2 p3 p4 : Str) (h : Split s '.' = [p1, p2, p3, p4]) :
    s = quadText p1 p2 p3 p4 := by
  obtain ⟨_, h1⟩ := Split_eq_cons '.' s _ _ h
  rcases h1 with ⟨h1, _⟩ | ⟨r1, e1, h1⟩
  · exact absurd h1 (by simp)
  obtain ⟨_, h2⟩ := Split_eq_cons '.' r1 _ _ h1
  rcases h2 with ⟨h2, _⟩ | ⟨r2, e2, h2⟩
  · exact absurd h2 (by simp)
  obtain ⟨_, h3⟩ := Split_eq_cons '.' r2 _ _ h2
  rcases h3 with ⟨h3, _⟩ | ⟨r3, e3, h3⟩
  · exact absurd h3 (by simp)
  obtain ⟨_, h4⟩ := Split_eq_cons '.' r3 _ _ h3
  rcases h4 with ⟨_, e4⟩ | ⟨r4, _, h4⟩
  · rw [e1, e2, e3, e4]
    rfl
  · exact absurd h4 (Split_ne_nil r4 '.')

theorem Split_quadText (p1 p2 p3 p4 : Str) (h1 : ∀ c ∈ p1, c ≠ '.') (h2 : ∀ c ∈ p2, c ≠ '.')
    (h3 : ∀ c ∈ p3, c ≠ '.') (h4 : ∀ c ∈ p4, c ≠ '.') :
    Split (quadText p1 p2 p3 p4) '.' = [p1, p2, p3, p4] := by
  unfold quadText
  rw [Split_append_sep _ _ _ h1, Split_append_sep _ _ _ h2, Split_append_sep _ _ _ h3,
    Split_nosep _ _ h4]

theorem isDottedQuad_quadText (p1 p2 p3 p4 : Str) (h1 : isOctet p1 = true)
    (h2 : isOctet p2 = true) (h3 : isOctet p3 = true) (h4 : isOctet p4 = true) :
    isDottedQuad (quadText p1 p2 p3 p4) = true := by
  rw [isDottedQuad_iff]
  unfold splitsIntoOctets
  rw [Split_quadText p1 p2 p3 p4 (octet_nosep _ h1) (octet_nosep _ h2) (octet_nosep _ h3)
    (octet_nosep _ h4)]
  refine ⟨rfl, ?_⟩
  intro p hp
  simp only [List.mem_cons, List.mem_singleton, List.not_mem_nil, or_false] at hp
  rcases hp with h | h | h | h <;> subst h <;> assumption

theorem exists_quadText_of_isDottedQuad (s : Str) (h : isDottedQuad s = true) :
    ∃ p1 p2 p3 p4, isOctet p1 = true ∧ isOctet p2 = true ∧ isOctet p3 = true
      ∧ isOctet p4 = true ∧ s = quadText p1 p2 p3 p4 := by
  obtain ⟨hlen, hall⟩ := (isDottedQuad_iff s).1 h
  match hs : Split s '.', hlen with
  | [p1, p2, p3, p4], _ =>
    rw [hs] at hall
    exact ⟨p1, p2, p3, p4, hall p1 (by simp), hall p2 (by simp), hall p3 (by simp),
      hall p4 (by simp), eq_quadText_of_Split s p1 p2 p3 p4 hs⟩

theorem quadText_host_inj (h p1 p2 p3 x y : Str)
    (e : h ++ quadText p1 p2 p3 x = h ++ quadText p1 p2 p3 y) : x = y := by
  unfold quadText at e
  have h0 := List.append_cancel_left e
  have h1 := List.append_cancel_left h0
  injection h1 with _ h1
  have h2 := List.append_cancel_left h1
  injection h2 with _ h2
  have h3 := List.append_cancel_left h2
  injection h3

/-- The block of a seed `h ++ p1.p2.p3.p4` whose head `h` has no dot and that
the guard accepts: the last part is replaced by 1, ..., 255. -/
theorem seedBlock_accepted (h p1 p2 p3 p4 : Str) (hh : ∀ c ∈ h, c ≠ '.')
    (h1 : ∀ c ∈ p1, c ≠ '.') (h2 : ∀ c ∈ p2, c ≠ '.') (h3 : ∀ c ∈ p3, c ≠ '.')
    (h4 : ∀ c ∈ p4, c ≠ '.') (hacc : seedAccepted (h ++ quadText p1 p2 p3 p4) = true) :
    seedBlock (h ++ quadText p1 p2 p3 p4)
      = (List.range' 1 255).map (fun i => h ++ quadText p1 p2 p3 (fmtDecimal i)) := by
  have hsp : Split (h ++ quadText p1 p2 p3 p4) '.' = [h ++ p1, p2, p3, p4] := by
    rw [Split_append_nosep h _ '.' hh, Split_quadText p1 p2 p3 p4 h1 h2 h3 h4]
    rfl
  unfold seedBlock
  rw [hacc, hsp]
  simp only [if_true]
  apply List.map_congr_left
  intro i _
  simp [Sprintf, Join, quadText, List.intercalate]

theorem block_host_not_mem (h p1 p2 p3 : Str) :
    h ++ quadText p1 p2 p3 (fmtDecimal 0)
        ∉ (List.range' 1 255).map (fun i => h ++ quadText p1 p2 p3 (fmtDecimal i))
    ∧ h ++ quadText p1 p2 p3 (fmtDecimal 256)
        ∉ (List.range' 1 255).map (fun i => h ++ quadText p1 p2 p3 (fmtDecimal i)) := by
  constructor
  · intro hmem
    obtain ⟨i, hi, hq⟩ := List.mem_map.1 hmem
    rw [List.mem_range'_1] at hi
    exact (fmtDecimal_host_ne i (by omega) hi.1).1 (quadText_host_inj h p1 p2 p3 _ _ hq).symm
  · intro hmem
    obtain ⟨i, hi, hq⟩ := List.mem_map.1 hmem
    rw [List.mem_range'_1] at hi
    exact (fmtDecimal_host_ne i (by omega) hi.1).2 (quadText_host_inj h p1 p2 p3 _ _ hq).symm

theorem isNumericQuad_no_colon (s : Str) (h : isNumericQuad s = true) : ':' ∉ s := by
  intro hc
  obtain ⟨p, hp, hcp⟩ := mem_Split s '.' ':' hc (by decide)
  simp only [isNumericQuad, Bool.and_eq_true, decide_eq_true_eq, List.all_eq_true] at h
  have := h.2 p hp
  simp only [isNumericOctet, Bool.and_eq_true, decide_eq_true_eq, List.all_eq_true] at this
  exact isDigit_ne_colon ':' (this.1.2 ':' hcp) rfl

/-- A seed without a colon that is no dotted quad contributes nothing. -/
theorem generateAllIPs_of_not_quad (s : Str) (hcolon : ':' ∉ s)
    (hq : isDottedQuad s = false) : generateAllIPs [s] = [] := by
  rw [generateAllIPs_singleton]
  apply seedBlock_rejected
  by_contra hacc
  have hacc1 : seedAccepted s = true := by simpa using hacc
  rw [isDottedQuad_of_seedAccepted s hcolon hacc1] at hq
  exact Bool.noConfusion hq

/-- C1 fails as stated: `010.0.0.5` is four numeric octets, each 0-255, yet
`net.ParseIP` rejects an octet written with a leading zero and the seed
contributes no address. -/
theorem generateAllIPs_leading_zero_seed :
    isNumericQuad "010.0.0.5".toList = true
    ∧ (Split "010.0.0.5".toList '.').map decimalValue = [10, 0, 0, 5]
    ∧ generateAllIPs ["010.0.0.5".toList] = [] := by
  refine ⟨by decide, by decide, ?_⟩
  exact generateAllIPs_of_not_quad _ (by decide) (by decide)

/-- C1, amended: for a seed `a.b.c.d` of four numeric octets, each 0-255 and
written without a leading zero, `generateAllIPs` returns exactly the 255
addresses `a.b.c.1`, ..., `a.b.c.255` in ascending order of the host octet,
and neither `a.b.c.0` nor `a.b.c.256`; every valid dotted quad is such a seed,
and so is the decimal text of any four numbers below 256; a seed of four
numeric octets one of which has a leading zero contributes nothing. -/
theorem generateAllIPs_valid_seed :
    (∀ p1 p2 p3 p4 : Str, isOctet p1 = true → isOctet p2 = true → isOctet p3 = true →
      isOctet p4 = true →
      generateAllIPs [quadText p1 p2 p3 p4]
          = (List.range' 1 255).map (fun i => quadText p1 p2 p3 (fmtDecimal i))
      ∧ (generateAllIPs [quadText p1 p2 p3 p4]).length = 255
      ∧ quadText p1 p2 p3 (fmtDecimal 0) ∉ generateAllIPs [quadText p1 p2 p3 p4]
      ∧ quadText p1 p2 p3 (fmtDecimal 256) ∉ generateAllIPs [quadText p1 p2 p3 p4])
    ∧ (∀ s : Str, isDottedQuad s = true →
      ∃ p1 p2 p3 p4, isOctet p1 = true ∧ isOctet p2 = true ∧ isOctet p3 = true
        ∧ isOctet p4 = true ∧ s = quadText p1 p2 p3 p4)
    ∧ (∀ a b c d : Nat, a < 256 → b < 256 → c < 256 → d < 256 →
      isDottedQuad (dottedQuad a b c d) = true
      ∧ generateAllIPs [dottedQuad a b c d] = (List.range' 1 255).map (dottedQuad a b c))
    ∧ (∀ s : Str, isNumericQuad s = true → isDottedQuad s = false → generateAllIPs [s] = []) := by
  have main : ∀ p1 p2 p3 p4 : Str, isOctet p1 = true → isOctet p2 = true →
      isOctet p3 = true → isOctet p4 = true →
      generateAllIPs [quadText p1 p2 p3 p4]
          = (List.range' 1 255).map (fun i => quadText p1 p2 p3 (fmtDecimal i)) := by
    intro p1 p2 p3 p4 h1 h2 h3 h4
    have hacc := seedAccepted_of_isDottedQuad _ (isDottedQuad_quadText p1 p2 p3 p4 h1 h2 h3 h4)
    have := seedBlock_accepted [] p1 p2 p3 p4 (by simp) (octet_nosep _ h1) (octet_nosep _ h2)
      (octet_nosep _ h3) (octet_nosep _ h4) hacc
    rw [generateAllIPs_singleton]
    simpa using this
  refine ⟨?_, exists_quadText_of_isDottedQuad, ?_, ?_⟩
  · intro p1 p2 p3 p4 h1 h2 h3 h4
    have heq := main p1 p2 p3 p4 h1 h2 h3 h4
    have hnm := block_host_not_mem [] p1 p2 p3
    simp only [List.nil_append] at hnm
    refine ⟨heq, by rw [heq]; simp, ?_, ?_⟩
    · rw [heq]
      exact hnm.1
    · rw [heq]
      exact hnm.2
  · intro a b c d ha hb hc hd
    exact ⟨isDottedQuad_dottedQuad a b c d ha hb hc hd,
      main _ _ _ _ (isOctet_fmtDecimal a ha) (isOctet_fmtDecimal b hb) (isOctet_fmtDecimal c hc)
        (isOctet_fmtDecimal d hd)⟩
  · intro s hs hq
    exact generateAllIPs_of_not_quad s (isNumericQuad_no_colon s hs) hq

/-- C1 amended, at the seeds `10.0.0.5` and `10.0.0.05`. -/
theorem generateAllIPs_valid_seed_witness :
    (generateAllIPs [quadText "10".toList "0".toList "0".toList "5".toList]
        = (List.range' 1 255).map
            (fun i => quadText "10".toList "0".toList "0".toList (fmtDecimal i))
      ∧ (generateAllIPs [quadText "10".toList "0".toList "0".toList "5".toList]).length = 255
      ∧ quadText "10".toList "0".toList "0".toList (fmtDecimal 0)
          ∉ generateAllIPs [quadText "10".toList "0".toList "0".toList "5".toList]
      ∧ quadText "10".toList "0".toList "0".toList (fmtDecimal 256)
          ∉ generateAllIPs [quadText "10".toList "0".toList "0".toList "5".toList])
    ∧ generateAllIPs ["10.0.0.05".toList] = [] :=
  ⟨generateAllIPs_valid_seed.1 _ _ _ _ (by decide) (by decide) (by decide) (by decide),
   generateAllIPs_valid_seed.2.2.2 _ (by decide) (by decide)⟩

/-! ## net.ParseIP on IPv6 literals with a dot -/

theorem To4_ne_none_iff (ip : List Nat) : To4 ip ≠ none ↔ isIPv4Mapped ip = true := by
  unfold To4 isIPv4Mapped
  by_cases hlen : ip.length = 16
  · rcases ip with _ | ⟨a0, _ | ⟨a1, _ | ⟨a2, _ | ⟨a3, _ | ⟨a4, _ | ⟨a5, _ | ⟨a6, _ | ⟨a7,
      _ | ⟨a8, _ | ⟨a9, _ | ⟨a10, _ | ⟨a11, _ | ⟨a12, _ | ⟨a13, _ | ⟨a14, _ | ⟨a15, t⟩⟩⟩⟩⟩⟩⟩⟩⟩⟩⟩⟩⟩⟩⟩⟩
    all_goals simp at hlen
    subst hlen
    simp [List.replicate]
  · simp [hlen]

theorem hexVal_dot : hexVal '.' = none := by decide

theorem hexVal_colon : hexVal ':' = none := by decide

/-- The group scanner reads a prefix of hexadecimal digits. -/
theorem scanHex_spec (s : Str) :
    ∀ (off acc off1 acc1 : Nat), scanHex s off acc = some (off1, acc1) →
      ∃ k, off1 = off + k ∧ ∀ c ∈ s.take k, hexVal c ≠ none := by
  induction s with
  | nil =>
    intro off acc off1 acc1 h
    simp only [scanHex] at h
    injection h with h
    injection h with h1 h2
    exact ⟨0, by omega, by simp⟩
  | cons c rest ih =>
    intro off acc off1 acc1 h
    rw [scanHex] at h
    cases hv : hexVal c with
    | none =>
      rw [hv] at h
      simp only at h
      injection h with h
      injection h with h1 h2
      exact ⟨0, by omega, by simp⟩
    | some d =>
      rw [hv] at h
      simp only at h
      split at h
      · exact Option.noConfusion h
      · split at h
        · exact Option.noConfusion h
        · obtain ⟨k, hk, hall⟩ := ih _ _ _ _ h
          refine ⟨k + 1, by omega, ?_⟩
          intro x hx
          simp only [List.take_succ_cons, List.mem_cons] at hx
          rcases hx with hx | hx
          · rw [hx, hv]
            exact Option.noConfusion
          · exact hall x hx

theorem dot_mem_drop (s : Str) (k : Nat) (hall : ∀ c ∈ s.take k, hexVal c ≠ none)
    (hdot : '.' ∈ s) : '.' ∈ s.drop k := by
  rw [← List.take_append_drop k s] at hdot
  rcases List.mem_append.1 hdot with h | h
  · exact absurd hexVal_dot (hall '.' h)
  · exact h

theorem take_no_dot (s : Str) (k : Nat) (hall : ∀ c ∈ s.take k, hexVal c ≠ none) :
    ∀ c ∈ s.take k, c ≠ '.' := by
  intro c hc hcd
  rw [hcd] at hc
  exact hall '.' hc hexVal_dot

theorem getLast?_append_of_ne_nil (a b : Str) (c : Char) (hb : b = [] ∨ b.getLast? = some c)
    (ha : a.getLast? = some c) : (a ++ b).getLast? = some c := by
  rcases hb with hb | hb
  · rw [hb, List.append_nil]
    exact ha
  · rw [List.getLast?_append, hb]
    rfl

/-- When the main loop of `parseIPv6` uses up a string that has a dot, the
string ends in a dotted quad that `parseIPv4Fields` accepts, and what comes
before it has no dot and, unless empty, ends in a colon. -/
theorem parseIPv6Loop_dotted (fuel : Nat) :
    ∀ (s : Str) (i : Nat) (e : Option Nat) (ip : List Nat) (st : V6State),
      parseIPv6Loop fuel s i e ip = some st → st.rest = [] → '.' ∈ s →
      ∃ h q, s = h ++ q ∧ (parseIPv4Fields q).isSome = true ∧ (∀ c ∈ h, c ≠ '.')
        ∧ (h = [] ∨ h.getLast? = some ':') := by
  induction fuel with
  | zero =>
    intro s i e ip st h hrest hdot
    simp only [parseIPv6Loop] at h
    split at h
    · exact Option.noConfusion h
    · injection h with h
      subst h
      simp only at hrest
      rw [hrest] at hdot
      simp at hdot
  | succ fuel ih =>
    intro s i e ip st h hrest hdot
    rw [parseIPv6Loop] at h
    split at h
    · split at h
      · exact Option.noConfusion h
      · rename_i off acc hscan
        obtain ⟨k, hk, hall⟩ := scanHex_spec s 0 0 off acc hscan
        have hk0 : off = k := by omega
        subst hk0
        have hdrop := dot_mem_drop s off hall hdot
        have htake := take_no_dot s off hall
        split at h
        · exact Option.noConfusion h
        · split at h
          · split at h
            · exact Option.noConfusion h
            · split at h
              · exact Option.noConfusion h
              · split at h
                · exact Option.noConfusion h
                · rename_i fields hf
                  exact ⟨[], s, rfl, by rw [hf]; rfl, by simp, Or.inl rfl⟩
          · split at h
            · rename_i hd
              rw [hd] at hdrop
              simp at hdrop
            · rename_i c s1 hd
              split at h
              · exact Option.noConfusion h
              · rename_i hc
                have hc1 : c = ':' := by simpa using hc
                subst hc1
                have hs : s = s.take off ++ ':' :: s1 := by
                  rw [← hd, List.take_append_drop]
                split at h
                · exact Option.noConfusion h
                · rename_i c1 s2
                  split at h
                  · rename_i hc1
                    subst hc1
                    split at h
                    · exact Option.noConfusion h
                    · split at h
                      · rename_i hs2
                        subst hs2
                        rw [hd] at hdrop
                        simp at hdrop
                      · have hdot2 : '.' ∈ s2 := by
                          rw [hd] at hdrop
                          simpa using hdrop
                        obtain ⟨h1, q, e1, hq, hnd, hl⟩ := ih _ _ _ _ _ h hrest hdot2
                        refine ⟨s.take off ++ ':' :: ':' :: h1, q, ?_, hq, ?_, Or.inr ?_⟩
                        · simp only [List.append_assoc, List.cons_append]
                          rw [← e1]
                          exact hs
                        · intro x hx
                          rcases List.mem_append.1 hx with hx | hx
                          · exact htake x hx
                          · simp only [List.mem_cons] at hx
                            rcases hx with hx | hx | hx
                            · rw [hx]; decide
                            · rw [hx]; decide
                            · exact hnd x hx
                        · rw [List.getLast?_append]
                          have : (':' :: ':' :: h1).getLast? = some ':' := by
                            have := getLast?_append_of_ne_nil [':', ':'] h1 ':' hl rfl
                            simpa using this
                          rw [this]
                          rfl
                  · rename_i hc1
                    have hdot1 : '.' ∈ c1 :: s2 := by
                      rw [hd] at hdrop
                      simpa using hdrop
                    obtain ⟨h1, q, e1, hq, hnd, hl⟩ := ih _ _ _ _ _ h hrest hdot1
                    refine ⟨s.take off ++ ':' :: h1, q, ?_, hq, ?_, Or.inr ?_⟩
                    · simp only [List.append_assoc, List.cons_append]
                      rw [← e1]
                      exact hs
                    · intro x hx
                      rcases List.mem_append.1 hx with hx | hx
                      · exact htake x hx
                      · simp only [List.mem_cons] at hx
                        rcases hx with hx | hx
                        · rw [hx]; decide
                        · exact hnd x hx
                    · rw [List.getLast?_append]
                      have : (':' :: h1).getLast? = some ':' := by
                        have := getLast?_append_of_ne_nil [':'] h1 ':' hl rfl
                        simpa using this
                      rw [this]
                      rfl
    · injection h with h
      subst h
      simp only at hrest
      rw [hrest] at hdot
      simp at hdot

theorem finishIPv6_rest (st : V6State) (ip : List Nat) (h : finishIPv6 st = some ip) :
    st.rest = [] := by
  unfold finishIPv6 at h
  by_contra hne
  rw [if_pos hne] at h
  exact Option.noConfusion h

/-- What `parseIPv6` has done when it returns an address without a zone. -/
theorem parseIPv6_some (s0 : Str) (ip : List Nat) (h : parseIPv6 s0 = some (ip, [])) :
    '%' ∉ s0
    ∧ ((∃ s1, s0 = ':' :: ':' :: s1
          ∧ (s1 = [] ∨ ∃ st, parseIPv6Loop 8 s1 0 (some 0) [] = some st ∧ st.rest = []))
      ∨ (∃ st, parseIPv6Loop 8 s0 0 none [] = some st ∧ st.rest = [])) := by
  unfold parseIPv6 at h
  simp only at h
  split at h
  · exact Option.noConfusion h
  · rename_i hz
    have hzone : ((s0.dropWhile (fun c => decide (c ≠ '%'))).drop 1) = [] := by
      split at h
      · split at h
        · injection h with h
          injection h with _ h2
        · simp only [Option.map_eq_some', Prod.mk.injEq] at h
          obtain ⟨_, _, _, h2⟩ := h
          exact h2
      · simp only [Option.map_eq_some', Prod.mk.injEq] at h
        obtain ⟨_, _, _, h2⟩ := h
        exact h2
    have hpct : '%' ∉ s0 := fun hm => hz ⟨hm, hzone⟩
    have htw : s0.takeWhile (fun c => decide (c ≠ '%')) = s0 := by
      rw [List.takeWhile_eq_self_iff]
      intro c hc
      simp only [decide_eq_true_eq]
      intro hcp
      exact hpct (hcp ▸ hc)
    rw [htw] at h
    refine ⟨hpct, ?_⟩
    split at h
    · rename_i s1
      left
      refine ⟨s1, rfl, ?_⟩
      split at h
      · rename_i hs1
        exact Or.inl hs1
      · simp only [Option.map_eq_some', Prod.mk.injEq] at h
        obtain ⟨ip1, hb, _, _⟩ := h
        simp only [Option.bind_eq_bind, Option.bind_eq_some] at hb
        obtain ⟨st, hl, hfin⟩ := hb
        exact Or.inr ⟨st, hl, finishIPv6_rest st ip1 hfin⟩
    · right
      simp only [Option.map_eq_some', Prod.mk.injEq] at h
      obtain ⟨ip1, hb, _, _⟩ := h
      simp only [Option.bind_eq_bind, Option.bind_eq_some] at hb
      obtain ⟨st, hl, hfin⟩ := hb
      exact ⟨st, hl, finishIPv6_rest st ip1 hfin⟩

theorem isDottedQuad_no_colon (s : Str) (h : isDottedQuad s = true) : ':' ∉ s := by
  intro hc
  rcases isDottedQuad_chars s h ':' hc with h1 | h1
  · exact absurd h1 (by decide)
  · exact isDigit_ne_colon ':' h1 rfl

/-- A literal with a colon and a dot that `net.ParseIP` accepts is a head
without a dot that ends in a colon, followed by a valid dotted quad. -/
theorem ParseIP_colon_dotted (s0 : Str) (ip : List Nat) (hp : ParseIP s0 = some ip)
    (hc : ':' ∈ s0) (hd : '.' ∈ s0) :
    ∃ h q, s0 = h ++ q ∧ isDottedQuad q = true ∧ (∀ c ∈ h, c ≠ '.')
      ∧ h.getLast? = some ':' := by
  unfold ParseIP at hp
  cases hpa : ParseAddr s0 with
  | none => simp [hpa] at hp
  | some r =>
    obtain ⟨ip1, zone⟩ := r
    rw [hpa] at hp
    simp only at hp
    split at hp
    · exact Option.noConfusion hp
    · rename_i hzone
      have hzone : zone = [] := by simpa using hzone
      subst hzone
      cases hf : s0.find? (fun c => c = '.' || c = ':' || c = '%') with
      | none => simp [ParseAddr, hf] at hpa
      | some x =>
        by_cases hx : x = '.'
        · subst hx
          unfold ParseAddr at hpa
          rw [hf] at hpa
          have hsome : (parseIPv4Fields s0).isSome = true := by
            cases hp4 : parseIPv4Fields s0 with
            | none => simp [hp4] at hpa
            | some f => rfl
          exact absurd hc (isDottedQuad_no_colon s0 ((parseIPv4Fields_isSome_iff s0).1 hsome))
        · by_cases hx2 : x = ':'
          · subst hx2
            unfold ParseAddr at hpa
            rw [hf] at hpa
            simp only at hpa
            obtain ⟨_, hcases⟩ := parseIPv6_some s0 ip1 hpa
            rcases hcases with ⟨s1, hs, h1⟩ | ⟨st, hl, hrest⟩
            · rcases h1 with h1 | ⟨st, hl, hrest⟩
              · rw [hs, h1] at hd
                simp at hd
              · have hd1 : '.' ∈ s1 := by
                  rw [hs] at hd
                  simpa using hd
                obtain ⟨h, q, e1, hq, hnd, hl2⟩ := parseIPv6Loop_dotted 8 _ _ _ _ _ hl hrest hd1
                refine ⟨':' :: ':' :: h, q, by rw [hs, e1]; rfl,
                  (parseIPv4Fields_isSome_iff q).1 hq, ?_, ?_⟩
                · intro c hcm
                  simp only [List.mem_cons] at hcm
                  rcases hcm with hcm | hcm | hcm
                  · rw [hcm]; decide
                  · rw [hcm]; decide
                  · exact hnd c hcm
                · have := getLast?_append_of_ne_nil [':', ':'] h ':' hl2 rfl
                  simpa using this
            · obtain ⟨h, q, e1, hq, hnd, hl2⟩ := parseIPv6Loop_dotted 8 _ _ _ _ _ hl hrest hd
              have hqd := (parseIPv4Fields_isSome_iff q).1 hq
              rcases hl2 with hl2 | hl2
              · subst hl2
                rw [e1] at hc
                exact absurd hc (isDottedQuad_no_colon q hqd)
              · exact ⟨h, q, e1, hqd, hnd, hl2⟩
          · rw [ParseAddr_other s0 x hf hx hx2] at hpa
            exact Option.noConfusion hpa

/-! ## The guard of generateAllIPs, in full -/

theorem seedAccepted_iff_guard (s : Str) :
    seedAccepted s = true ↔
      ∃ ip, ParseIP s = some ip ∧ To4 ip ≠ none ∧ (Split s '.').length = 4 := by
  unfold seedAccepted
  cases hp : ParseIP s with
  | none => simp
  | some ip =>
    by_cases h4 : To4 ip = none
    · simp [h4]
    · by_cases hl : (Split s '.').length = 4
      · simp [h4, hl]
      · simp [h4, hl]

theorem isMappedQuad_iff (s : Str) :
    isMappedQuad s = true ↔
      ':' ∈ s ∧ '.' ∈ s ∧ ∃ ip, ParseIP s = some ip ∧ isIPv4Mapped ip = true := by
  unfold isMappedQuad
  cases hp : ParseIP s with
  | none => simp
  | some ip => simp [and_assoc]

theorem Split_length_of_mapped (h q : Str) (hq : isDottedQuad q = true)
    (hh : ∀ c ∈ h, c ≠ '.') : (Split (h ++ q) '.').length = 4 := by
  rw [Split_append_nosep h q '.' hh]
  have hlen := ((isDottedQuad_iff q).1 hq).1
  have hne := Split_ne_nil q '.'
  cases hs : Split q '.' with
  | nil => exact absurd hs hne
  | cons p ps =>
    rw [hs] at hlen
    simpa using hlen

/-- The guard of lines 89-99 accepts exactly the valid dotted quads and the
IPv4-mapped IPv6 literals with a dotted tail. -/
theorem seedAccepted_iff (s : Str) :
    seedAccepted s = true ↔ (isDottedQuad s = true ∨ isMappedQuad s = true) := by
  constructor
  · intro hacc
    by_cases hcolon : ':' ∈ s
    · right
      obtain ⟨ip, hp, h4, hl⟩ := (seedAccepted_iff_guard s).1 hacc
      have hdot : '.' ∈ s := by
        by_contra hno
        rw [Split_nosep s '.' (fun c hc hcd => hno (hcd ▸ hc))] at hl
        simp at hl
      exact (isMappedQuad_iff s).2 ⟨hcolon, hdot, ip, hp, (To4_ne_none_iff ip).1 h4⟩
    · exact Or.inl (isDottedQuad_of_seedAccepted s hcolon hacc)
  · rintro (hq | hm)
    · exact seedAccepted_of_isDottedQuad s hq
    · obtain ⟨hc, hd, ip, hp, hmap⟩ := (isMappedQuad_iff s).1 hm
      obtain ⟨h, q, e, hq, hnd, _⟩ := ParseIP_colon_dotted s ip hp hc hd
      refine (seedAccepted_iff_guard s).2 ⟨ip, hp, (To4_ne_none_iff ip).2 hmap, ?_⟩
      rw [e]
      exact Split_length_of_mapped h q hq hnd

/-- An IPv4-mapped literal with a dotted tail is a head ending in a colon
followed by a dotted quad, and its block replaces the last octet by 1..255. -/
theorem mapped_seed_expanded (s : Str) (hm : isMappedQuad s = true) :
    ∃ h p1 p2 p3 p4, s = h ++ quadText p1 p2 p3 p4 ∧ h.getLast? = some ':'
      ∧ (∀ c ∈ h, c ≠ '.')
      ∧ isOctet p1 = true ∧ isOctet p2 = true ∧ isOctet p3 = true ∧ isOctet p4 = true
      ∧ generateAllIPs [s]
          = (List.range' 1 255).map (fun i => h ++ quadText p1 p2 p3 (fmtDecimal i)) := by
  have hacc := (seedAccepted_iff s).2 (Or.inr hm)
  obtain ⟨hc, hd, ip, hp, _⟩ := (isMappedQuad_iff s).1 hm
  obtain ⟨h, q, e, hq, hnd, hl⟩ := ParseIP_colon_dotted s ip hp hc hd
  obtain ⟨p1, p2, p3, p4, h1, h2, h3, h4, eq⟩ := exists_quadText_of_isDottedQuad q hq
  subst eq
  subst e
  refine ⟨h, p1, p2, p3, p4, rfl, hl, hnd, h1, h2, h3, h4, ?_⟩
  rw [generateAllIPs_singleton]
  exact seedBlock_accepted h p1 p2 p3 p4 hnd (octet_nosep _ h1) (octet_nosep _ h2)
    (octet_nosep _ h3) (octet_nosep _ h4) hacc

/-! ## The literals `::ffff:a.b.c.d` -/

theorem foldl_decimal_ge_pow (q : Str) (v : Nat) :
    v * 10 ^ q.length ≤ q.foldl (fun v c => v * 10 + (c.toNat - 48)) v := by
  induction q generalizing v with
  | nil => simp
  | cons c q ih =>
    simp only [List.foldl_cons, List.length_cons]
    refine le_trans ?_ (ih _)
    rw [Nat.pow_succ]
    have : v * (10 ^ q.length * 10) = (v * 10) * 10 ^ q.length := by ring
    rw [this]
    exact Nat.mul_le_mul_right _ (by omega)

theorem isOctet_length (p : Str) (h : isOctet p = true) : 1 ≤ p.length ∧ p.length ≤ 3 := by
  obtain ⟨hne, hd, hz, hv⟩ := (isOctet_iff p).1 h
  cases p with
  | nil => exact absurd rfl hne
  | cons c t =>
    refine ⟨by simp, ?_⟩
    by_cases hc : c = '0'
    · have := hz (by simp [hc])
      omega
    · have hdc := (isDigit_iff c).1 (hd c (by simp))
      have hc1 : 1 ≤ c.toNat - 48 := by
        by_contra hlt
        exact hc (char_eq_zero c (by omega))
      have hge := foldl_decimal_ge_pow t (0 * 10 + (c.toNat - 48))
      have hval : decimalValue (c :: t) = t.foldl (fun v c => v * 10 + (c.toNat - 48))
          (0 * 10 + (c.toNat - 48)) := rfl
      rw [hval] at hv
      by_contra hlen
      simp only [List.length_cons] at hlen
      have h3 : 3 ≤ t.length := by omega
      have hpow : 10 ^ 3 ≤ 10 ^ t.length := Nat.pow_le_pow_right (by omega) h3
      have h1 : 1 * 10 ^ t.length ≤ (0 * 10 + (c.toNat - 48)) * 10 ^ t.length :=
        Nat.mul_le_mul_right _ (by omega)
      omega

theorem hexVal_digit (c : Char) (h : isDigit c = true) : hexVal c = some (c.toNat - 48) := by
  unfold hexVal
  unfold isDigit at h
  simp only [Bool.and_eq_true, decide_eq_true_eq] at h
  rw [if_pos h]

/-- The group scanner on decimal digits followed by a dot. -/
theorem scanHex_digits (p : Str) (rest : Str) :
    ∀ (off acc : Nat), (∀ c ∈ p, isDigit c = true) → off + p.length ≤ 4 → acc < 16 ^ off →
      ∃ acc1, scanHex (p ++ '.' :: rest) off acc = some (off + p.length, acc1) := by
  induction p with
  | nil =>
    intro off acc _ _ _
    refine ⟨acc, ?_⟩
    simp [scanHex, hexVal_dot]
  | cons c p ih =>
    intro off acc hd hlen hacc
    have hdc := (isDigit_iff c).1 (hd c (by simp))
    simp only [List.length_cons] at hlen
    have hoff : off ≤ 3 := by omega
    have hpow : 16 ^ (off + 1) ≤ 65536 := by
      interval_cases off <;> norm_num
    have hnew : acc * 16 + (c.toNat - 48) < 16 ^ (off + 1) := by
      rw [Nat.pow_succ]
      omega
    have hmod : (acc * 16 + (c.toNat - 48)) % 2 ^ 32 = acc * 16 + (c.toNat - 48) :=
      Nat.mod_eq_of_lt (by omega)
    obtain ⟨acc1, h1⟩ := ih (off + 1) (acc * 16 + (c.toNat - 48))
      (fun x hx => hd x (by simp [hx])) (by omega) hnew
    refine ⟨acc1, ?_⟩
    rw [List.cons_append, scanHex, hexVal_digit c (hd c (by simp))]
    simp only
    rw [if_neg (by omega), hmod, if_neg (by omega), h1, List.length_cons]
    congr 2
    omega

theorem takeWhile_dropWhile_of_not_mem (s : Str) (h : '%' ∉ s) :
    s.takeWhile (fun c => decide (c ≠ '%')) = s
    ∧ s.dropWhile (fun c => decide (c ≠ '%')) = [] := by
  have hall : ∀ c ∈ s, decide (c ≠ '%') = true := by
    intro c hc
    simp only [decide_eq_true_eq]
    intro hcp
    exact h (hcp ▸ hc)
  exact ⟨List.takeWhile_eq_self_iff.2 hall, List.dropWhile_eq_nil_iff.2 hall⟩

theorem isDottedQuad_no_percent (q : Str) (h : isDottedQuad q = true) : '%' ∉ q := by
  intro hc
  rcases isDottedQuad_chars q h '%' hc with h1 | h1
  · exact absurd h1 (by decide)
  · exact isDigit_ne_percent '%' h1 rfl

/-- `net.ParseIP` on `::ffff:` followed by a valid dotted quad. -/
theorem ParseIP_mapped (q : Str) (hq : isDottedQuad q = true) :
    ∃ f, f.length = 4 ∧ ParseIP ("::ffff:".toList ++ q) = some (v4InV6 f) := by
  obtain ⟨p1, p2, p3, p4, h1, h2, h3, h4, eq⟩ := exists_quadText_of_isDottedQuad q hq
  have hp := (parseIPv4Fields_isSome_iff q).2 hq
  obtain ⟨f, hf⟩ := Option.isSome_iff_exists.1 hp
  have hflen := parseIPv4Fields_length q f hf
  refine ⟨f, hflen, ?_⟩
  have hpct : '%' ∉ "::ffff:".toList ++ q := by
    intro hm
    rcases List.mem_append.1 hm with hm | hm
    · revert hm
      decide
    · exact isDottedQuad_no_percent q hq hm
  obtain ⟨htw, hdw⟩ := takeWhile_dropWhile_of_not_mem _ hpct
  obtain ⟨hl1, hl3⟩ := isOctet_length p1 h1
  have hd1 := ((isOctet_iff p1).1 h1).2.1
  obtain ⟨acc1, hscan⟩ := scanHex_digits p1 (p2 ++ '.' :: (p3 ++ '.' :: p4)) 0 0 hd1
    (by omega) (by norm_num)
  have hqe : q = p1 ++ '.' :: (p2 ++ '.' :: (p3 ++ '.' :: p4)) := eq
  -- the first character of the quad is a digit
  obtain ⟨c1, t1, hp1⟩ : ∃ c1 t1, p1 = c1 :: t1 := by
    cases p1 with
    | nil => simp at hl1
    | cons c t => exact ⟨c, t, rfl⟩
  have hc1 : c1 ≠ ':' := isDigit_ne_colon c1 (hd1 c1 (by simp [hp1]))
  have hqcons : q = c1 :: (t1 ++ '.' :: (p2 ++ '.' :: (p3 ++ '.' :: p4))) := by
    rw [hqe, hp1]
    rfl
  have hdrop : (q.drop (0 + p1.length)).head? = some '.' := by
    rw [hqe]
    simp
  have hloop2 : parseIPv6Loop 7 q 2 (some 0) [255, 255]
      = some ⟨[], 6, some 0, 255 :: 255 :: f⟩ := by
    rw [parseIPv6Loop]
    rw [if_pos (by omega)]
    rw [show scanHex q 0 0 = some (0 + p1.length, acc1) from by rw [hqe]; exact hscan]
    simp only
    rw [if_neg (by omega), if_pos hdrop, if_neg (by simp), if_neg (by omega), hf]
    rfl
  have hscanf : scanHex ('f' :: 'f' :: 'f' :: 'f' :: ':' :: q) 0 0 = some (4, 65535) := by
    simp [scanHex, hexVal]
  have hloop1 : parseIPv6Loop 8 ('f' :: 'f' :: 'f' :: 'f' :: ':' :: q) 0 (some 0) []
      = some ⟨[], 6, some 0, 255 :: 255 :: f⟩ := by
    rw [parseIPv6Loop]
    rw [if_pos (by omega), hscanf, hqcons]
    simp [hc1]
    rw [← hqcons]
    exact hloop2
  have hfin : finishIPv6 ⟨[], 6, some 0, 255 :: 255 :: f⟩ = some (v4InV6 f) := by
    simp [finishIPv6, v4InV6, List.replicate]
  have h6 : parseIPv6 ("::ffff:".toList ++ q) = some (v4InV6 f, []) := by
    unfold parseIPv6
    simp only [htw, hdw]
    rw [if_neg (fun h => hpct h.1)]
    show (match ':' :: ':' :: ('f' :: 'f' :: 'f' :: 'f' :: ':' :: q) with
      | ':' :: ':' :: s1 =>
        if s1 = [] then some (List.replicate 16 0, ([] : Str).drop 1)
        else (parseIPv6Loop 8 s1 0 (some 0) [] >>= finishIPv6).map
          (fun ip => (ip, ([] : Str).drop 1))
      | _ => (parseIPv6Loop 8 (':' :: ':' :: ('f' :: 'f' :: 'f' :: 'f' :: ':' :: q)) 0 none []
          >>= finishIPv6).map (fun ip => (ip, ([] : Str).drop 1))) = _
    simp only
    rw [if_neg (by simp), hloop1]
    simp [hfin]
  have hfind : ("::ffff:".toList ++ q).find? (fun c => c = '.' || c = ':' || c = '%')
      = some ':' := by
    show (':' :: _).find? _ = _
    simp [List.find?]
  unfold ParseIP ParseAddr
  rw [hfind]
  simp only
  rw [h6]
  simp

theorem isMappedQuad_ffff (q : Str) (hq : isDottedQuad q = true) :
    isMappedQuad ("::ffff:".toList ++ q) = true := by
  obtain ⟨f, hflen, hp⟩ := ParseIP_mapped q hq
  rw [isMappedQuad_iff]
  refine ⟨by show ':' ∈ ':' :: _; simp, ?_, v4InV6 f, hp, ?_⟩
  · exact List.mem_append_right _ (isDottedQuad_has_dot q hq)
  · simp [isIPv4Mapped, v4InV6, hflen]

/-! ## Seeds that are skipped -/

theorem flatMap_filter_of_nil {α β : Type} (f : α → List β) (p : α → Bool) (l : List α)
    (h : ∀ x ∈ l, p x = false → f x = []) : (l.filter p).flatMap f = l.flatMap f := by
  induction l with
  | nil => rfl
  | cons x xs ih =>
    have ih1 := ih (fun y hy => h y (List.mem_cons_of_mem _ hy))
    by_cases hp : p x = true
    · rw [List.filter_cons_of_pos hp, List.flatMap_cons, List.flatMap_cons, ih1]
    · have hp0 : p x = false := by simpa using hp
      rw [List.filter_cons_of_neg hp, List.flatMap_cons, ih1, h x (List.mem_cons_self _ _) hp0]
      rfl

/-- C2 fails as stated: the seed `::ffff:1.2.3.4` is not four numeric octets,
yet `net.ParseIP` and `To4` accept it and it has four dot-separated parts, so
it contributes 255 addresses; removing it changes the output. -/
theorem generateAllIPs_mapped_seed_expanded :
    isDottedQuad "::ffff:1.2.3.4".toList = false
    ∧ (generateAllIPs ["::ffff:1.2.3.4".toList]).length = 255
    ∧ (generateAllIPs ["::ffff:1.2.3.4".toList]).head? = some "::ffff:1.2.3.1".toList
    ∧ generateAllIPs ["::ffff:1.2.3.4".toList]
        ≠ generateAllIPs (["::ffff:1.2.3.4".toList].filter isDottedQuad) := by
  have hq : isDottedQuad "::ffff:1.2.3.4".toList = false := by decide
  have hacc : seedAccepted "::ffff:1.2.3.4".toList = true := by decide
  have hlen : (generateAllIPs ["::ffff:1.2.3.4".toList]).length = 255 := by
    rw [generateAllIPs_singleton]
    exact seedBlock_length _ hacc
  refine ⟨hq, hlen, ?_, ?_⟩
  · rw [generateAllIPs_singleton]
    unfold seedBlock
    rw [if_pos hacc]
    decide
  · intro h
    have h2 : (generateAllIPs (["::ffff:1.2.3.4".toList].filter isDottedQuad)).length = 0 := by
      rw [List.filter_cons_of_neg (by rw [hq]; exact Bool.false_ne_true)]
      rfl
    rw [← h, hlen] at h2
    exact absurd h2 (by decide)

/-- C2, amended: removing from the input every seed that is neither a valid
dotted quad (four numeric octets, each 0-255, no leading zero) nor an
IPv4-mapped IPv6 literal with a dotted tail leaves the result of
`generateAllIPs` unchanged: every such seed contributes no address, and every
seed that is kept contributes its 255 addresses.  A mapped literal is a head
ending in a colon followed by a dotted quad `a.b.c.d`, and it is expanded to
head `a.b.c.1`, ..., head `a.b.c.255`; `::ffff:` followed by a valid dotted
quad is always one. -/
theorem generateAllIPs_skips_invalid :
    (∀ seeds : List Str,
      generateAllIPs seeds
        = generateAllIPs (seeds.filter (fun s => isDottedQuad s || isMappedQuad s)))
    ∧ (∀ s : Str, isDottedQuad s = false → isMappedQuad s = false → generateAllIPs [s] = [])
    ∧ (∀ s : Str, isDottedQuad s = true ∨ isMappedQuad s = true →
        (generateAllIPs [s]).length = 255)
    ∧ (∀ s : Str, isMappedQuad s = true →
        ∃ h p1 p2 p3 p4, s = h ++ quadText p1 p2 p3 p4 ∧ h.getLast? = some ':'
          ∧ (∀ c ∈ h, c ≠ '.')
          ∧ isOctet p1 = true ∧ isOctet p2 = true ∧ isOctet p3 = true ∧ isOctet p4 = true
          ∧ generateAllIPs [s]
              = (List.range' 1 255).map (fun i => h ++ quadText p1 p2 p3 (fmtDecimal i)))
    ∧ (∀ q : Str, isDottedQuad q = true → isMappedQuad ("::ffff:".toList ++ q) = true) := by
  have hrej : ∀ s : Str, isDottedQuad s = false → isMappedQuad s = false →
      seedBlock s = [] := by
    intro s hq hm
    apply seedBlock_rejected
    by_contra hacc
    have hacc1 : seedAccepted s = true := by simpa using hacc
    rcases (seedAccepted_iff s).1 hacc1 with h | h
    · rw [h] at hq
      exact Bool.noConfusion hq
    · rw [h] at hm
      exact Bool.noConfusion hm
  refine ⟨?_, ?_, ?_, mapped_seed_expanded, isMappedQuad_ffff⟩
  · intro seeds
    rw [generateAllIPs_eq_flatMap, generateAllIPs_eq_flatMap]
    symm
    apply flatMap_filter_of_nil
    intro s _ hp
    simp only [Bool.or_eq_false_iff] at hp
    exact hrej s hp.1 hp.2
  · intro s hq hm
    rw [generateAllIPs_singleton]
    exact hrej s hq hm
  · intro s hs
    rw [generateAllIPs_singleton]
    exact seedBlock_length s ((seedAccepted_iff s).2 hs)

/-- C2 amended, at seeds that are skipped: `1.2.3` (three octets),
`1.2.3.256` (octet out of range), `x.2.3.4` (a token that is no number), and
the IPv6 literals `::1`, `::1.2.3.4`, `::ffff:102:304` and
`1:2:3:4:5:6:7.8.9.10`; and at a list in which a skipped seed stands between
two valid ones. -/
theorem generateAllIPs_skips_invalid_witness :
    generateAllIPs ["1.2.3".toList] = [] ∧ generateAllIPs ["1.2.3.256".toList] = []
    ∧ generateAllIPs ["x.2.3.4".toList] = []
    ∧ generateAllIPs ["::1".toList] = []
    ∧ generateAllIPs ["::1.2.3.4".toList] = []
    ∧ generateAllIPs ["::ffff:102:304".toList] = []
    ∧ generateAllIPs ["1:2:3:4:5:6:7.8.9.10".toList] = []
    ∧ (generateAllIPs ["0:0:0:0:0:ffff:1.2.3.4".toList]).length = 255
    ∧ generateAllIPs ["10.0.0.5".toList, "1.2.3.256".toList, "10.0.1.5".toList]
        = generateAllIPs (["10.0.0.5".toList, "1.2.3.256".toList, "10.0.1.5".toList].filter
            (fun s => isDottedQuad s || isMappedQuad s)) :=
  ⟨generateAllIPs_skips_invalid.2.1 _ (by decide) (by decide),
   generateAllIPs_skips_invalid.2.1 _ (by decide) (by decide),
   generateAllIPs_skips_invalid.2.1 _ (by decide) (by decide),
   generateAllIPs_skips_invalid.2.1 _ (by decide) (by decide),
   generateAllIPs_skips_invalid.2.1 _ (by decide) (by decide),
   generateAllIPs_skips_invalid.2.1 _ (by decide) (by decide),
   generateAllIPs_skips_invalid.2.1 _ (by decide) (by decide),
   generateAllIPs_skips_invalid.2.2.1 _ (Or.inr (by decide)),
   generateAllIPs_skips_invalid.1 _⟩

/-! ## The worker pool -/

theorem getElem?_set_self_of_some {α : Type} (l : List α) (w : Nat) (p x : α)
    (h : l[w]? = some p) : (l.set w x)[w]? = some x := by
  have hlt : w < l.length := by
    by_contra hge
    rw [List.getElem?_eq_none (by omega)] at h
    exact Option.noConfusion h
  rw [List.getElem?_set]
  simp [hlt]

/-- One step keeps an exited worker exited, and is not a hand-off to it. -/
theorem step_exited (cfg : ScanConfig) (w : Nat) (l : Label) (s s1 : ScanState)
    (hw : s.workers[w]? = some .exited) (h : step cfg l s = some s1) :
    s1.workers[w]? = some .exited ∧ l ≠ .handoff w := by
  cases l with
  | handoff v =>
    by_cases hv : v = w
    · subst hv
      simp [step, hw] at h
    · simp only [step] at h
      split at h
      · split at h
        · injection h with h
          subst h
          simp only
          rw [List.getElem?_set_ne hv]
          exact ⟨hw, fun hc => hv (by injection hc)⟩
        · exact Option.noConfusion h
      · exact Option.noConfusion h
  | observeDone v =>
    by_cases hv : v = w
    · subst hv
      simp [step, hw] at h
    · simp only [step] at h
      split at h
      · split at h
        · injection h with h
          subst h
          simp only
          rw [List.getElem?_set_ne hv]
          exact ⟨hw, fun hc => Label.noConfusion hc⟩
        · exact Option.noConfusion h
      · exact Option.noConfusion h
  | recvClosed v =>
    by_cases hv : v = w
    · subst hv
      simp only [step, hw] at h
      split at h <;> simp_all
    · simp only [step] at h
      split at h
      · exact Option.noConfusion h
      · injection h with h
        subst h
        simp only
        rw [List.getElem?_set_ne hv]
        exact ⟨hw, fun hc => Label.noConfusion hc⟩
      · exact Option.noConfusion h
  | probeReturn v =>
    by_cases hv : v = w
    · subst hv
      simp [step, hw] at h
    · simp only [step] at h
      split at h
      · split at h
        · injection h with h
          subst h
          simp only
          rw [List.getElem?_set_ne hv]
          exact ⟨hw, fun hc => Label.noConfusion hc⟩
        · injection h with h
          subst h
          simp only
          rw [List.getElem?_set_ne hv]
          exact ⟨hw, fun hc => Label.noConfusion hc⟩
      · exact Option.noConfusion h
  | closeChan =>
    simp only [step] at h
    split at h
    · split at h
      · exact Option.noConfusion h
      · injection h with h
        subst h
        exact ⟨hw, fun hc => Label.noConfusion hc⟩
    · exact Option.noConfusion h
  | finish =>
    simp only [step] at h
    split at h
    · split at h
      · injection h with h
        subst h
        exact ⟨hw, fun hc => Label.noConfusion hc⟩
      · exact Option.noConfusion h
    · exact Option.noConfusion h

/-- An exited worker stays exited and receives no further address. -/
theorem run_exited (cfg : ScanConfig) (w : Nat) (ls : List Label) :
    ∀ s s1 : ScanState, s.workers[w]? = some .exited → run cfg ls s = some s1 →
      s1.workers[w]? = some .exited ∧ Label.handoff w ∉ ls := by
  induction ls with
  | nil =>
    intro s s1 hw h
    simp only [run] at h
    injection h with h
    subst h
    exact ⟨hw, by simp⟩
  | cons l ls ih =>
    intro s s1 hw h
    simp only [run] at h
    cases hst : step cfg l s with
    | none => simp [hst] at h
    | some s2 =>
      rw [hst] at h
      obtain ⟨hw2, hl⟩ := step_exited cfg w l s s2 hw hst
      obtain ⟨hw1, hls⟩ := ih s2 s1 hw2 h
      refine ⟨hw1, ?_⟩
      intro hmem
      rcases List.mem_cons.1 hmem with h1 | h1
      · exact hl h1.symm
      · exact hls h1

/-- C6: when the lookup of a worker returns the critical flag, the worker
sets the cancellation signal and exits in that step, and never receives an
address afterwards; when it returns non-critical, the signal is unchanged and
the worker is back at its `select`. -/
theorem worker_probe_return (cfg : ScanConfig) (s : ScanState) (w k : Nat)
    (hw : s.workers[w]? = some (.probing k)) :
    ∃ s1, step cfg (.probeReturn w) s = some s1
      ∧ s1.main = s.main ∧ s1.probes = s.probes
      ∧ (cfg.critical k = true →
          s1.cancelled = true ∧ s1.workers[w]? = some .exited
          ∧ ∀ ls s2, run cfg ls s1 = some s2 →
              s2.workers[w]? = some .exited ∧ Label.handoff w ∉ ls)
      ∧ (cfg.critical k = false →
          s1.cancelled = s.cancelled ∧ s1.workers[w]? = some .selecting) := by
  by_cases hc : cfg.critical k = true
  · refine ⟨{ s with cancelled := true, workers := s.workers.set w .exited }, ?_, rfl, rfl, ?_, ?_⟩
    · simp [step, hw, hc]
    · intro _
      have hex := getElem?_set_self_of_some s.workers w _ WorkerPc.exited hw
      exact ⟨rfl, hex, fun ls s2 h => run_exited cfg w ls _ s2 hex h⟩
    · intro h
      rw [hc] at h
      exact Bool.noConfusion h
  · have hc0 : cfg.critical k = false := by simpa using hc
    refine ⟨{ s with workers := s.workers.set w .selecting }, ?_, rfl, rfl, ?_, ?_⟩
    · simp [step, hw, hc0]
    · intro h
      exact absurd h hc
    · intro _
      exact ⟨rfl, getElem?_set_self_of_some s.workers w _ WorkerPc.selecting hw⟩

/-- C6 on `hangConfig`, where the worker is inside its third lookup. -/
theorem worker_probe_return_witness :
    ∃ s1, step hangConfig (.probeReturn 0) ⟨.feeding 3, [.probing 2], false, [0, 1, 2]⟩ = some s1
      ∧ s1.main = .feeding 3 ∧ s1.probes = [0, 1, 2]
      ∧ (hangConfig.critical 2 = true →
          s1.cancelled = true ∧ s1.workers[0]? = some .exited
          ∧ ∀ ls s2, run hangConfig ls s1 = some s2 →
              s2.workers[0]? = some .exited ∧ Label.handoff 0 ∉ ls)
      ∧ (hangConfig.critical 2 = false →
          s1.cancelled = false ∧ s1.workers[0]? = some .selecting) :=
  worker_probe_return hangConfig ⟨.feeding 3, [.probing 2], false, [0, 1, 2]⟩ 0 2 rfl

/-! ### The feed after a cancellation -/

theorem step_hangStates (l : Label) (s s1 : ScanState) (hs : s ∈ hangStates)
    (h : step hangConfig l s = some s1) : s1 ∈ hangStates := by
  simp only [hangStates, List.mem_cons, List.mem_singleton, List.not_mem_nil, or_false] at hs
  rcases hs with rfl | rfl | rfl | rfl | rfl | rfl | rfl <;> cases l <;>
    first
    | (simp [step, hangConfig] at h; done)
    | (rename_i w
       cases w <;> simp [step, hangConfig] at h <;> subst h <;> simp [hangStates])

theorem run_hangStates (ls : List Label) :
    ∀ s s1 : ScanState, s ∈ hangStates → run hangConfig ls s = some s1 → s1 ∈ hangStates := by
  induction ls with
  | nil =>
    intro s s1 hs h
    simp only [run] at h
    injection h with h
    subst h
    exact hs
  | cons l ls ih =>
    intro s s1 hs h
    simp only [run] at h
    cases hst : step hangConfig l s with
    | none => simp [hst] at h
    | some s2 =>
      rw [hst] at h
      exact ih s2 s1 (step_hangStates l s s2 hs hst) h

theorem hangStates_blocked : ∀ s ∈ hangStates,
    s.main ≠ .waiting ∧ s.main ≠ .finished ∧ s.probes.length ≤ 3 := by
  decide

/-- With one worker, ten addresses and a critical third lookup, the worker
exits after three probes and `main` stays blocked in the send of the fourth
address; no step is enabled any more, and no run ever reaches
`close(ipChan)`, `wg.Wait()` or the completion message. -/
theorem scan_hangs_after_critical_probe :
    hangConfig.ipList.length = 10
    ∧ run hangConfig
        [.handoff 0, .probeReturn 0, .handoff 0, .probeReturn 0, .handoff 0, .probeReturn 0]
        (initState hangConfig) = some ⟨.feeding 3, [.exited], true, [0, 1, 2]⟩
    ∧ (∀ l, step hangConfig l ⟨.feeding 3, [.exited], true, [0, 1, 2]⟩ = none)
    ∧ (∀ ls s, run hangConfig ls (initState hangConfig) = some s →
        s.main ≠ .waiting ∧ s.main ≠ .finished ∧ s.probes.length ≤ 3) := by
  refine ⟨by simp [hangConfig], by decide, ?_, ?_⟩
  · intro l
    cases l <;>
      first
      | (simp [step, hangConfig]; done)
      | (rename_i w
         cases w <;> simp [step, hangConfig])
  · intro ls s h
    exact hangStates_blocked s (run_hangStates ls _ s (by decide) h)

/-- With one worker and a critical third lookup, any feed of more than three
addresses leaves `main` blocked in the send of the fourth one. -/
theorem scan_hangs_of_critical_third (cfg : ScanConfig) (hn : cfg.threadCount = 1)
    (hlen : 3 < cfg.ipList.length) (h0 : cfg.critical 0 = false) (h1 : cfg.critical 1 = false)
    (h2 : cfg.critical 2 = true) :
    run cfg [.handoff 0, .probeReturn 0, .handoff 0, .probeReturn 0, .handoff 0, .probeReturn 0]
        (initState cfg) = some ⟨.feeding 3, [.exited], true, [0, 1, 2]⟩
    ∧ ∀ l, step cfg l ⟨.feeding 3, [.exited], true, [0, 1, 2]⟩ = none := by
  have l0 : 0 < cfg.ipList.length := by omega
  have l1 : 1 < cfg.ipList.length := by omega
  have l2 : 2 < cfg.ipList.length := by omega
  constructor
  · simp [run, step, initState, hn, h0, h1, h2, l0, l1, l2]
  · intro l
    cases l <;>
      first
      | (simp [step, hlen]; done)
      | (rename_i w
         cases w <;> simp [step])

/-- The same hang on the feed generated from the seed `10.0.0.5`. -/
theorem scan_hangs_on_seed :
    seedConfig.ipList.length = 255
    ∧ run seedConfig
        [.handoff 0, .probeReturn 0, .handoff 0, .probeReturn 0, .handoff 0, .probeReturn 0]
        (initState seedConfig) = some ⟨.feeding 3, [.exited], true, [0, 1, 2]⟩
    ∧ ∀ l, step seedConfig l ⟨.feeding 3, [.exited], true, [0, 1, 2]⟩ = none := by
  have hlen : seedConfig.ipList.length = 255 := by
    simp only [seedConfig]
    rw [generateAllIPs_singleton]
    exact seedBlock_length _
      (seedAccepted_of_isDottedQuad _
        (isDottedQuad_dottedQuad 10 0 0 5 (by decide) (by decide) (by decide) (by decide)))
  exact ⟨hlen, scan_hangs_of_critical_third seedConfig rfl (by rw [hlen]; decide) rfl rfl rfl⟩

/-- What the feed index and the probe log have in common. -/
theorem step_probes_length (cfg : ScanConfig) (l : Label) (s s1 : ScanState)
    (h : step cfg l s = some s1)
    (hinv : (∀ k, s.main = .feeding k → s.probes.length = k ∧ k ≤ cfg.ipList.length)
      ∧ ((∀ k, s.main ≠ .feeding k) → s.probes.length = cfg.ipList.length)) :
    (∀ k, s1.main = .feeding k → s1.probes.length = k ∧ k ≤ cfg.ipList.length)
      ∧ ((∀ k, s1.main ≠ .feeding k) → s1.probes.length = cfg.ipList.length) := by
  obtain ⟨h1, h2⟩ := hinv
  cases l with
  | handoff w =>
    simp only [step] at h
    split at h
    · rename_i _ _ k hm _
      split at h
      · injection h with h
        subst h
        obtain ⟨e, _⟩ := h1 k hm
        constructor
        · intro j hj
          simp only at hj
          injection hj with hj
          subst hj
          simp [e]
          omega
        · intro hj
          exact absurd rfl (hj (k + 1))
      · exact Option.noConfusion h
    · exact Option.noConfusion h
  | observeDone w =>
    simp only [step] at h
    split at h
    · split at h
      · injection h with h
        subst h
        exact ⟨h1, h2⟩
      · exact Option.noConfusion h
    · exact Option.noConfusion h
  | recvClosed w =>
    simp only [step] at h
    split at h
    · exact Option.noConfusion h
    · injection h with h
      subst h
      exact ⟨h1, h2⟩
    · exact Option.noConfusion h
  | probeReturn w =>
    simp only [step] at h
    split at h
    · split at h <;>
      · injection h with h
        subst h
        exact ⟨h1, h2⟩
    · exact Option.noConfusion h
  | closeChan =>
    simp only [step] at h
    split at h
    · rename_i k hm
      split at h
      · exact Option.noConfusion h
      · injection h with h
        subst h
        obtain ⟨e, hle⟩ := h1 k hm
        constructor
        · intro j hj
          simp at hj
        · intro _
          simp only
          omega
    · exact Option.noConfusion h
  | finish =>
    simp only [step] at h
    split at h
    · rename_i hm
      split at h
      · injection h with h
        subst h
        constructor
        · intro j hj
          simp at hj
        · intro _
          exact h2 (fun k hk => by rw [hm] at hk; exact MainPc.noConfusion hk)
      · exact Option.noConfusion h
    · exact Option.noConfusion h

/-- The feed index of `main` is the number of probes started, in every run. -/
theorem run_probes_length (cfg : ScanConfig) (ls : List Label) :
    ∀ s0 s : ScanState,
      ((∀ k, s0.main = .feeding k → s0.probes.length = k ∧ k ≤ cfg.ipList.length)
        ∧ ((∀ k, s0.main ≠ .feeding k) → s0.probes.length = cfg.ipList.length)) →
      run cfg ls s0 = some s →
      ((∀ k, s.main = .feeding k → s.probes.length = k ∧ k ≤ cfg.ipList.length)
        ∧ ((∀ k, s.main ≠ .feeding k) → s.probes.length = cfg.ipList.length)) := by
  induction ls with
  | nil =>
    intro s0 s hinv h
    simp only [run] at h
    injection h with h
    subst h
    exact hinv
  | cons l ls ih =>
    intro s0 s hinv h
    simp only [run] at h
    cases hst : step cfg l s0 with
    | none => simp [hst] at h
    | some s2 =>
      rw [hst] at h
      exact ih s2 s (step_probes_length cfg l s0 s2 hst hinv) h

theorem initState_probes_length (cfg : ScanConfig) :
    (∀ k, (initState cfg).main = .feeding k →
        (initState cfg).probes.length = k ∧ k ≤ cfg.ipList.length)
      ∧ ((∀ k, (initState cfg).main ≠ .feeding k) →
        (initState cfg).probes.length = cfg.ipList.length) := by
  constructor
  · intro k hk
    simp only [initState] at hk
    injection hk with hk
    subst hk
    exact ⟨rfl, Nat.zero_le _⟩
  · intro h
    exact absurd rfl (h 0)

/-- In every run, once `main` is past its feed loop every address of the feed
has been handed to `reverseLookup`: a run that probes fewer addresses than the
feed holds never reaches the completion message. -/
theorem completion_requires_all_probed (cfg : ScanConfig) (ls : List Label) (s : ScanState)
    (h : run cfg ls (initState cfg) = some s) (hm : s.main = .waiting ∨ s.main = .finished) :
    s.probes.length = cfg.ipList.length := by
  apply (run_probes_length cfg ls _ s (initState_probes_length cfg) h).2
  intro k hk
  rcases hm with hm | hm <;> rw [hm] at hk <;> exact MainPc.noConfusion hk

/-! ### A single worker -/

theorem step_handoff_inv (cfg : ScanConfig) (w : Nat) (s s1 : ScanState)
    (h : step cfg (.handoff w) s = some s1) :
    ∃ k, s.main = .feeding k ∧ s.workers[w]? = some .selecting ∧ k < cfg.ipList.length
      ∧ s1 = { s with
          main := .feeding (k + 1)
          workers := s.workers.set w (.probing k)
          probes := s.probes ++ [k] } := by
  simp only [step] at h
  split at h
  · rename_i _ _ k hm hw
    split at h
    · rename_i hk
      injection h with h
      exact ⟨k, hm, hw, hk, h.symm⟩
    · exact Option.noConfusion h
  · exact Option.noConfusion h

theorem step_observeDone_inv (cfg : ScanConfig) (w : Nat) (s s1 : ScanState)
    (h : step cfg (.observeDone w) s = some s1) :
    s.workers[w]? = some .selecting ∧ s.cancelled = true
      ∧ s1 = { s with workers := s.workers.set w .exited } := by
  simp only [step] at h
  split at h
  · rename_i hw
    split at h
    · rename_i hc
      injection h with h
      exact ⟨hw, hc, h.symm⟩
    · exact Option.noConfusion h
  · exact Option.noConfusion h

theorem step_recvClosed_inv (cfg : ScanConfig) (w : Nat) (s s1 : ScanState)
    (h : step cfg (.recvClosed w) s = some s1) :
    (∀ k, s.main ≠ .feeding k) ∧ s.workers[w]? = some .selecting
      ∧ s1 = { s with workers := s.workers.set w .exited } := by
  simp only [step] at h
  split at h
  · exact Option.noConfusion h
  · rename_i hw hm
    injection h with h
    exact ⟨fun k hk => hm k hk, hw, h.symm⟩
  · exact Option.noConfusion h

theorem step_probeReturn_inv (cfg : ScanConfig) (w : Nat) (s s1 : ScanState)
    (h : step cfg (.probeReturn w) s = some s1) :
    ∃ k, s.workers[w]? = some (.probing k)
      ∧ (cfg.critical k = true →
          s1 = { s with cancelled := true, workers := s.workers.set w .exited })
      ∧ (cfg.critical k = false → s1 = { s with workers := s.workers.set w .selecting }) := by
  simp only [step] at h
  split at h
  · rename_i k hw
    split at h
    · rename_i hc
      injection h with h
      exact ⟨k, hw, fun _ => h.symm, fun h0 => by rw [hc] at h0; exact Bool.noConfusion h0⟩
    · rename_i hc
      injection h with h
      exact ⟨k, hw, fun h1 => absurd h1 hc, fun _ => h.symm⟩
  · exact Option.noConfusion h

theorem step_closeChan_inv (cfg : ScanConfig) (s s1 : ScanState)
    (h : step cfg .closeChan s = some s1) :
    (∃ k, s.main = .feeding k ∧ ¬ k < cfg.ipList.length) ∧ s1 = { s with main := .waiting } := by
  simp only [step] at h
  split at h
  · rename_i k hm
    split at h
    · exact Option.noConfusion h
    · rename_i hk
      injection h with h
      exact ⟨⟨k, hm, hk⟩, h.symm⟩
  · exact Option.noConfusion h

theorem step_finish_inv (cfg : ScanConfig) (s s1 : ScanState)
    (h : step cfg .finish s = some s1) :
    s.main = .waiting ∧ s1 = { s with main := .finished } := by
  simp only [step] at h
  split at h
  · rename_i hm
    split at h
    · injection h with h
      exact ⟨hm, h.symm⟩
    · exact Option.noConfusion h
  · exact Option.noConfusion h

theorem singleton_getElem? (p q : WorkerPc) (w : Nat) (h : [p][w]? = some q) :
    w = 0 ∧ q = p := by
  cases w with
  | zero =>
    simp at h
    exact ⟨rfl, h.symm⟩
  | succ w => simp at h

theorem step_singleWorkerInv (cfg : ScanConfig) (hc : cfg.critical 2 = true) (l : Label)
    (s s1 : ScanState) (hinv : singleWorkerInv s) (h : step cfg l s = some s1) :
    singleWorkerInv s1 := by
  obtain ⟨hr, hm, hw⟩ := hinv
  cases l with
  | handoff w =>
    obtain ⟨k, hmk, hsel, _, rfl⟩ := step_handoff_inv cfg w s s1 h
    have hk := hm k hmk
    rcases hw with ⟨hw, hlen⟩ | ⟨j, hw, _, _⟩ | ⟨hw, _⟩
    · rw [hw] at hsel
      obtain ⟨rfl, _⟩ := singleton_getElem? _ _ _ hsel
      refine ⟨?_, ?_, Or.inr (Or.inl ⟨k, ?_, ?_, ?_⟩)⟩
      · show s.probes ++ [k] = List.range (s.probes ++ [k]).length
        rw [List.length_append, List.length_singleton, List.range_succ, hk, ← hk, ← hr]
      · intro k2 hk2
        have : MainPc.feeding (k + 1) = MainPc.feeding k2 := hk2
        injection this with this
        show (s.probes ++ [k]).length = k2
        rw [List.length_append, List.length_singleton, hk, this]
      · show s.workers.set 0 (.probing k) = [.probing k]
        rw [hw]
        rfl
      · show (s.probes ++ [k]).length = k + 1
        rw [List.length_append, List.length_singleton, hk]
      · omega
    · rw [hw] at hsel
      obtain ⟨_, h2⟩ := singleton_getElem? _ _ _ hsel
      exact WorkerPc.noConfusion h2
    · rw [hw] at hsel
      obtain ⟨_, h2⟩ := singleton_getElem? _ _ _ hsel
      exact WorkerPc.noConfusion h2
  | observeDone w =>
    obtain ⟨hsel, _, rfl⟩ := step_observeDone_inv cfg w s s1 h
    rcases hw with ⟨hw, hlen⟩ | ⟨j, hw, _, _⟩ | ⟨hw, _⟩
    · rw [hw] at hsel
      obtain ⟨rfl, _⟩ := singleton_getElem? _ _ _ hsel
      refine ⟨hr, hm, Or.inr (Or.inr ⟨?_, ?_⟩)⟩
      · show s.workers.set 0 .exited = [.exited]
        rw [hw]
        rfl
      · show s.probes.length ≤ 3
        omega
    · rw [hw] at hsel
      obtain ⟨_, h2⟩ := singleton_getElem? _ _ _ hsel
      exact WorkerPc.noConfusion h2
    · rw [hw] at hsel
      obtain ⟨_, h2⟩ := singleton_getElem? _ _ _ hsel
      exact WorkerPc.noConfusion h2
  | recvClosed w =>
    obtain ⟨_, hsel, rfl⟩ := step_recvClosed_inv cfg w s s1 h
    rcases hw with ⟨hw, hlen⟩ | ⟨j, hw, _, _⟩ | ⟨hw, _⟩
    · rw [hw] at hsel
      obtain ⟨rfl, _⟩ := singleton_getElem? _ _ _ hsel
      refine ⟨hr, hm, Or.inr (Or.inr ⟨?_, ?_⟩)⟩
      · show s.workers.set 0 .exited = [.exited]
        rw [hw]
        rfl
      · show s.probes.length ≤ 3
        omega
    · rw [hw] at hsel
      obtain ⟨_, h2⟩ := singleton_getElem? _ _ _ hsel
      exact WorkerPc.noConfusion h2
    · rw [hw] at hsel
      obtain ⟨_, h2⟩ := singleton_getElem? _ _ _ hsel
      exact WorkerPc.noConfusion h2
  | probeReturn w =>
    obtain ⟨k, hpr, hcrit, hnon⟩ := step_probeReturn_inv cfg w s s1 h
    rcases hw with ⟨hw, _⟩ | ⟨j, hw, hlen, hj⟩ | ⟨hw, _⟩
    · rw [hw] at hpr
      obtain ⟨_, h2⟩ := singleton_getElem? _ _ _ hpr
      exact WorkerPc.noConfusion h2
    · rw [hw] at hpr
      obtain ⟨rfl, h2⟩ := singleton_getElem? _ _ _ hpr
      injection h2 with h2
      subst h2
      by_cases hck : cfg.critical k = true
      · rw [hcrit hck]
        refine ⟨hr, hm, Or.inr (Or.inr ⟨?_, ?_⟩)⟩
        · show s.workers.set 0 .exited = [.exited]
          rw [hw]
          rfl
        · show s.probes.length ≤ 3
          omega
      · have hck0 : cfg.critical k = false := by simpa using hck
        rw [hnon hck0]
        have hk2 : k ≠ 2 := by
          intro h2
          rw [h2] at hck
          exact hck hc
        refine ⟨hr, hm, Or.inl ⟨?_, ?_⟩⟩
        · show s.workers.set 0 .selecting = [.selecting]
          rw [hw]
          rfl
        · show s.probes.length ≤ 2
          omega
    · rw [hw] at hpr
      obtain ⟨_, h2⟩ := singleton_getElem? _ _ _ hpr
      exact WorkerPc.noConfusion h2
  | closeChan =>
    obtain ⟨_, rfl⟩ := step_closeChan_inv cfg s s1 h
    exact ⟨hr, fun k hk => MainPc.noConfusion hk, hw⟩
  | finish =>
    obtain ⟨_, rfl⟩ := step_finish_inv cfg s s1 h
    exact ⟨hr, fun k hk => MainPc.noConfusion hk, hw⟩

theorem run_singleWorkerInv (cfg : ScanConfig) (hc : cfg.critical 2 = true) (ls : List Label) :
    ∀ s0 s : ScanState, singleWorkerInv s0 → run cfg ls s0 = some s → singleWorkerInv s := by
  induction ls with
  | nil =>
    intro s0 s hinv h
    simp only [run] at h
    injection h with h
    subst h
    exact hinv
  | cons l ls ih =>
    intro s0 s hinv h
    simp only [run] at h
    cases hst : step cfg l s0 with
    | none => simp [hst] at h
    | some s2 =>
      rw [hst] at h
      exact ih s2 s (step_singleWorkerInv cfg hc l s0 s2 hinv hst) h

theorem initState_singleWorkerInv (cfg : ScanConfig) (hn : cfg.threadCount = 1) :
    singleWorkerInv (initState cfg) := by
  refine ⟨rfl, ?_, Or.inl ⟨by simp [initState, hn], by simp [initState]⟩⟩
  intro k hk
  have hk1 : MainPc.feeding 0 = MainPc.feeding k := hk
  have hk2 : 0 = k := MainPc.feeding.inj hk1
  rw [← hk2]
  simp [initState]

/-! ### After the last address -/

theorem stepsLeft_set (ws : List WorkerPc) :
    ∀ (w : Nat) (p q : WorkerPc), ws[w]? = some p →
      stepsLeft (ws.set w q) + p.stepsLeft = stepsLeft ws + q.stepsLeft := by
  induction ws with
  | nil =>
    intro w p q h
    simp at h
  | cons a ws ih =>
    intro w p q h
    cases w with
    | zero =>
      simp at h
      subst h
      simp [stepsLeft]
      omega
    | succ w =>
      simp at h
      have := ih w p q h
      simp [stepsLeft] at this ⊢
      omega

theorem exists_not_exited (ws : List WorkerPc)
    (h : ¬ ws.all (fun p => decide (p = .exited)) = true) :
    ∃ (w : Nat) (p : WorkerPc), ws[w]? = some p ∧ p ≠ WorkerPc.exited := by
  induction ws with
  | nil => simp at h
  | cons a ws ih =>
    by_cases ha : a = .exited
    · have h1 : ¬ ws.all (fun p => decide (p = .exited)) = true := by
        intro hall
        apply h
        simp [ha]
        simpa using hall
      obtain ⟨w, p, hw, hp⟩ := ih h1
      exact ⟨w + 1, p, by simpa using hw, hp⟩
    · exact ⟨0, a, by simp, ha⟩

theorem run_cons_of_step (cfg : ScanConfig) (l : Label) (ls : List Label) (s s1 : ScanState)
    (h : step cfg l s = some s1) : run cfg (l :: ls) s = run cfg ls s1 := by
  simp [run, h]

theorem all_exited_eq_replicate (ws : List WorkerPc)
    (h : ws.all (fun p => decide (p = .exited)) = true) :
    ws = List.replicate ws.length WorkerPc.exited := by
  induction ws with
  | nil => rfl
  | cons a ws ih =>
    simp only [List.all_cons, Bool.and_eq_true, decide_eq_true_eq] at h
    rw [List.length_cons, List.replicate_succ, ← ih h.2, h.1]

/-- Once the channel is closed the workers leave and `wg.Wait()` returns: a
run to the completion step exists, at its end every worker has exited, and it
starts no probe. -/
theorem drain_workers (cfg : ScanConfig) :
    ∀ (n : Nat) (s : ScanState), stepsLeft s.workers ≤ n → s.main = .waiting →
      ∃ ls s1, run cfg ls s = some s1 ∧ s1.main = .finished
        ∧ s1.workers = List.replicate s.workers.length WorkerPc.exited
        ∧ s1.probes = s.probes := by
  intro n
  induction n with
  | zero =>
    intro s hn hm
    by_cases hall : s.workers.all (fun p => decide (p = .exited)) = true
    · exact ⟨[.finish], { s with main := .finished }, by simp [run, step, hm, hall], rfl,
        all_exited_eq_replicate s.workers hall, rfl⟩
    · obtain ⟨w, p, hw, hp⟩ := exists_not_exited s.workers hall
      have := stepsLeft_set s.workers w p .exited hw
      cases p with
      | selecting => simp [WorkerPc.stepsLeft] at this; omega
      | probing k => simp [WorkerPc.stepsLeft] at this; omega
      | exited => exact absurd rfl hp
  | succ n ih =>
    intro s hn hm
    by_cases hall : s.workers.all (fun p => decide (p = .exited)) = true
    · exact ⟨[.finish], { s with main := .finished }, by simp [run, step, hm, hall], rfl,
        all_exited_eq_replicate s.workers hall, rfl⟩
    · obtain ⟨w, p, hw, hp⟩ := exists_not_exited s.workers hall
      cases p with
      | selecting =>
        have hst : step cfg (.recvClosed w) s
            = some { s with workers := s.workers.set w .exited } := by
          simp [step, hm, hw]
        have hsl := stepsLeft_set s.workers w .selecting .exited hw
        simp only [WorkerPc.stepsLeft] at hsl
        obtain ⟨ls, s1, hr, hf, hws, hpr⟩ := ih { s with workers := s.workers.set w .exited }
          (by show stepsLeft (s.workers.set w .exited) ≤ n; omega) hm
        exact ⟨.recvClosed w :: ls, s1, by rw [run_cons_of_step cfg _ ls s _ hst]; exact hr,
          hf, by rw [hws]; simp, hpr⟩
      | probing k =>
        by_cases hc : cfg.critical k = true
        · have hst : step cfg (.probeReturn w) s
              = some { s with cancelled := true, workers := s.workers.set w .exited } := by
            simp [step, hw, hc]
          have hsl := stepsLeft_set s.workers w (.probing k) .exited hw
          simp only [WorkerPc.stepsLeft] at hsl
          obtain ⟨ls, s1, hr, hf, hws, hpr⟩ :=
            ih { s with cancelled := true, workers := s.workers.set w .exited }
              (by show stepsLeft (s.workers.set w .exited) ≤ n; omega) hm
          exact ⟨.probeReturn w :: ls, s1, by rw [run_cons_of_step cfg _ ls s _ hst]; exact hr,
            hf, by rw [hws]; simp, hpr⟩
        · have hc0 : cfg.critical k = false := by simpa using hc
          have hst : step cfg (.probeReturn w) s
              = some { s with workers := s.workers.set w .selecting } := by
            simp [step, hw, hc0]
          have hsl := stepsLeft_set s.workers w (.probing k) .selecting hw
          simp only [WorkerPc.stepsLeft] at hsl
          obtain ⟨ls, s1, hr, hf, hws, hpr⟩ :=
            ih { s with workers := s.workers.set w .selecting }
              (by show stepsLeft (s.workers.set w .selecting) ≤ n; omega) hm
          exact ⟨.probeReturn w :: ls, s1, by rw [run_cons_of_step cfg _ ls s _ hst]; exact hr,
            hf, by rw [hws]; simp, hpr⟩
      | exited => exact absurd rfl hp

/-! ### wg.Wait() -/

theorem mem_of_getElem?_eq_some (ws : List WorkerPc) (w : Nat) (p : WorkerPc)
    (h : ws[w]? = some p) : p ∈ ws := by
  rw [List.getElem?_eq_some] at h
  obtain ⟨hlt, hp⟩ := h
  exact hp ▸ List.getElem_mem hlt

/-- A step keeps: when `main` is past `wg.Wait()`, every worker has exited. -/
theorem step_finished_exited (cfg : ScanConfig) (l : Label) (s s1 : ScanState)
    (hinv : s.main = .finished → ∀ p ∈ s.workers, p = WorkerPc.exited)
    (h : step cfg l s = some s1) :
    s1.main = .finished → ∀ p ∈ s1.workers, p = WorkerPc.exited := by
  cases l with
  | handoff w =>
    obtain ⟨k, _, _, _, rfl⟩ := step_handoff_inv cfg w s s1 h
    intro hm
    exact MainPc.noConfusion hm
  | observeDone w =>
    obtain ⟨hsel, _, rfl⟩ := step_observeDone_inv cfg w s s1 h
    intro hm
    have := hinv hm _ (mem_of_getElem?_eq_some _ _ _ hsel)
    exact WorkerPc.noConfusion this
  | recvClosed w =>
    obtain ⟨_, hsel, rfl⟩ := step_recvClosed_inv cfg w s s1 h
    intro hm
    have := hinv hm _ (mem_of_getElem?_eq_some _ _ _ hsel)
    exact WorkerPc.noConfusion this
  | probeReturn w =>
    obtain ⟨k, hpr, hcrit, hnon⟩ := step_probeReturn_inv cfg w s s1 h
    intro hm
    have hm0 : s.main = .finished := by
      by_cases hck : cfg.critical k = true
      · rw [hcrit hck] at hm
        exact hm
      · have hck0 : cfg.critical k = false := by simpa using hck
        rw [hnon hck0] at hm
        exact hm
    have := hinv hm0 _ (mem_of_getElem?_eq_some _ _ _ hpr)
    exact WorkerPc.noConfusion this
  | closeChan =>
    obtain ⟨_, rfl⟩ := step_closeChan_inv cfg s s1 h
    intro hm
    exact MainPc.noConfusion hm
  | finish =>
    simp only [step] at h
    split at h
    · split at h
      · rename_i hall
        injection h with h
        subst h
        intro _ p hp
        simp only [List.all_eq_true, decide_eq_true_eq] at hall
        exact hall p hp
      · exact Option.noConfusion h
    · exact Option.noConfusion h

/-- In every run, `main` is past `wg.Wait()` only when every worker has
exited. -/
theorem run_finished_exited (cfg : ScanConfig) (ls : List Label) :
    ∀ s0 s : ScanState, (s0.main = .finished → ∀ p ∈ s0.workers, p = WorkerPc.exited) →
      run cfg ls s0 = some s → s.main = .finished → ∀ p ∈ s.workers, p = WorkerPc.exited := by
  induction ls with
  | nil =>
    intro s0 s hinv h
    simp only [run] at h
    injection h with h
    subst h
    exact hinv
  | cons l ls ih =>
    intro s0 s hinv h
    simp only [run] at h
    cases hst : step cfg l s0 with
    | none => simp [hst] at h
    | some s2 =>
      rw [hst] at h
      exact ih s2 s (step_finished_exited cfg l s0 s2 hinv hst) h

/-! ### The scan when one lookup is critical -/

/-- C4 fails as stated, in two ways.  With ten workers all ten addresses are
handed out before the third lookup returns: ten probes are attempted, and the
run then reaches the completion message.  With one worker only three probes
are attempted, but `main` stays blocked in the send of the fourth address and
no run reaches `close(ipChan)`. -/
theorem scan_all_probed_or_blocked :
    (wideConfig.ipList.length = 10 ∧ wideConfig.critical 2 = true
      ∧ run wideConfig wideRun (initState wideConfig)
          = some ⟨.finished, List.replicate 10 .exited, true, List.range 10⟩)
    ∧ (hangConfig.ipList.length = 10
      ∧ run hangConfig
          [.handoff 0, .probeReturn 0, .handoff 0, .probeReturn 0, .handoff 0, .probeReturn 0]
          (initState hangConfig) = some ⟨.feeding 3, [.exited], true, [0, 1, 2]⟩
      ∧ (∀ l, step hangConfig l ⟨.feeding 3, [.exited], true, [0, 1, 2]⟩ = none)
      ∧ (∀ ls s, run hangConfig ls (initState hangConfig) = some s →
          s.main ≠ .waiting ∧ s.main ≠ .finished ∧ s.probes.length ≤ 3)) :=
  ⟨⟨by simp [wideConfig], rfl, by decide⟩, scan_hangs_after_critical_probe⟩

/-- C4, amended: in every run with a single worker whose third lookup is
critical at most three probes are attempted, in feed order (strictly fewer
than the ten addresses of the feed), whereas ten workers can probe all ten
addresses; and in every run, with any number of workers, in which all
addresses have been handed out, `main` can close the channel, all workers
exit and the completion step is reached without a further probe; `main` is
never past `wg.Wait()` while a worker has not exited. -/
theorem scan_after_critical_probe (cfg : ScanConfig) (ls : List Label) (s : ScanState)
    (hrun : run cfg ls (initState cfg) = some s) :
    (cfg.threadCount = 1 → cfg.critical 2 = true →
      s.probes.length ≤ 3 ∧ s.probes = List.range s.probes.length)
    ∧ (∃ s1, run wideConfig ((List.range 10).map Label.handoff) (initState wideConfig) = some s1
        ∧ s1.probes.length = 10 ∧ s1.cancelled = false)
    ∧ (s.probes.length = cfg.ipList.length →
      ∃ ls1 s1, run cfg ls1 s = some s1 ∧ s1.main = .finished
        ∧ s1.workers = List.replicate cfg.threadCount.toNat WorkerPc.exited
        ∧ s1.probes = s.probes)
    ∧ (s.main = .finished → ∀ p ∈ s.workers, p = WorkerPc.exited) := by
  have hwl : ∀ (ls : List Label) (s0 s : ScanState), run cfg ls s0 = some s →
      s.workers.length = s0.workers.length := by
    intro ls
    induction ls with
    | nil =>
      intro s0 s h
      simp only [run] at h
      injection h with h
      rw [h]
    | cons l ls ih =>
      intro s0 s h
      simp only [run] at h
      cases hst : step cfg l s0 with
      | none => simp [hst] at h
      | some s2 =>
        rw [hst] at h
        rw [ih s2 s h]
        cases l with
        | handoff w =>
          obtain ⟨k, _, _, _, rfl⟩ := step_handoff_inv cfg w s0 s2 hst
          simp
        | observeDone w =>
          obtain ⟨_, _, rfl⟩ := step_observeDone_inv cfg w s0 s2 hst
          simp
        | recvClosed w =>
          obtain ⟨_, _, rfl⟩ := step_recvClosed_inv cfg w s0 s2 hst
          simp
        | probeReturn w =>
          obtain ⟨k, _, hcrit, hnon⟩ := step_probeReturn_inv cfg w s0 s2 hst
          by_cases hck : cfg.critical k = true
          · rw [hcrit hck]
            simp
          · have hck0 : cfg.critical k = false := by simpa using hck
            rw [hnon hck0]
            simp
        | closeChan =>
          obtain ⟨_, rfl⟩ := step_closeChan_inv cfg s0 s2 hst
          rfl
        | finish =>
          obtain ⟨_, rfl⟩ := step_finish_inv cfg s0 s2 hst
          rfl
  have hlenw : s.workers.length = cfg.threadCount.toNat := by
    rw [hwl ls _ s hrun]
    simp [initState]
  refine ⟨?_, ?_, ?_, ?_⟩
  · intro hn hc
    obtain ⟨hr, _, hw⟩ :=
      run_singleWorkerInv cfg hc ls _ s (initState_singleWorkerInv cfg hn) hrun
    refine ⟨?_, hr⟩
    rcases hw with ⟨_, h⟩ | ⟨j, _, h, hj⟩ | ⟨_, h⟩ <;> omega
  · exact ⟨⟨.feeding 10, (List.range 10).map WorkerPc.probing, false, List.range 10⟩,
      by decide, rfl, rfl⟩
  · intro hlen
    have hinv := run_probes_length cfg ls _ s (initState_probes_length cfg) hrun
    cases hm : s.main with
    | feeding k =>
      obtain ⟨hk, _⟩ := hinv.1 k hm
      have hst : step cfg .closeChan s = some { s with main := .waiting } := by
        simp [step, hm]
        omega
      obtain ⟨ls1, s1, hr, hf, hws, hp⟩ := drain_workers cfg (stepsLeft s.workers)
        { s with main := .waiting } (Nat.le_refl _) rfl
      exact ⟨.closeChan :: ls1, s1, by rw [run_cons_of_step cfg _ ls1 s _ hst]; exact hr, hf,
        by rw [hws]; show List.replicate s.workers.length _ = _; rw [hlenw], hp⟩
    | waiting =>
      obtain ⟨ls1, s1, hr, hf, hws, hp⟩ :=
        drain_workers cfg (stepsLeft s.workers) s (Nat.le_refl _) hm
      exact ⟨ls1, s1, hr, hf, by rw [hws, hlenw], hp⟩
    | finished =>
      have hex := run_finished_exited cfg ls _ s
        (fun h => MainPc.noConfusion h) hrun hm
      refine ⟨[], s, rfl, hm, ?_, rfl⟩
      rw [← hlenw]
      exact List.eq_replicate_iff.2 ⟨rfl, hex⟩
  · exact run_finished_exited cfg ls _ s (fun h => MainPc.noConfusion h) hrun

/-- C4 amended, on `hangConfig` after its three probes and on `wideConfig`
after its ten hand-offs. -/
theorem scan_after_critical_probe_witness :
    ((3 : Nat) ≤ 3 ∧ [0, 1, 2] = List.range 3)
    ∧ ∃ ls1 s1, run wideConfig ls1
          ⟨.feeding 10, (List.range 10).map WorkerPc.probing, false, List.range 10⟩ = some s1
        ∧ s1.main = .finished
        ∧ s1.workers = List.replicate 10 WorkerPc.exited
        ∧ s1.probes = List.range 10 :=
  ⟨(scan_after_critical_probe hangConfig
      [.handoff 0, .probeReturn 0, .handoff 0, .probeReturn 0, .handoff 0, .probeReturn 0]
      ⟨.feeding 3, [.exited], true, [0, 1, 2]⟩ (by decide)).1 rfl rfl,
   (scan_after_critical_probe wideConfig ((List.range 10).map Label.handoff)
      ⟨.feeding 10, (List.range 10).map WorkerPc.probing, false, List.range 10⟩ (by decide)).2.2.1
      (by decide)⟩

/-! ### Worker iterations after cancel() -/

/-- C5 fails as stated: with two workers, worker 0 cancels while worker 1 is
inside a lookup; worker 1 comes back to its `select` with the signal set and
an address on offer, and the receive branch is enabled: it starts a new
probe (feed index 2) after `cancel()`. -/
theorem probe_started_after_cancel :
    run raceConfig [.handoff 0, .handoff 1, .probeReturn 0, .probeReturn 1]
        (initState raceConfig) = some ⟨.feeding 2, [.exited, .selecting], true, [0, 1]⟩
    ∧ step raceConfig (.handoff 1) ⟨.feeding 2, [.exited, .selecting], true, [0, 1]⟩
        = some ⟨.feeding 3, [.exited, .probing 2], true, [0, 1, 2]⟩ := by
  constructor <;> decide

/-- C5, amended: once the cancellation signal is set, a worker at its
`select` can always take the `ctx.Done` branch and exit without probing, and
every step it takes either exits without a new probe or is the receive of an
address that `main` is offering at that moment; with no address on offer it
can only exit.  A lookup already in flight still returns. -/
theorem cancelled_worker_iteration (cfg : ScanConfig) (s : ScanState) (w : Nat)
    (hc : s.cancelled = true) :
    (s.workers[w]? = some .selecting →
      (∃ s1, step cfg (.observeDone w) s = some s1
          ∧ s1.workers[w]? = some .exited ∧ s1.probes = s.probes)
      ∧ (∀ l s1, l.worker = some w → step cfg l s = some s1 →
          (s1.workers[w]? = some .exited ∧ s1.probes = s.probes)
          ∨ (l = .handoff w ∧ offering cfg s))
      ∧ (¬ offering cfg s → ∀ l s1, l.worker = some w → step cfg l s = some s1 →
          s1.workers[w]? = some .exited ∧ s1.probes = s.probes))
    ∧ (∀ k, s.workers[w]? = some (.probing k) →
        ∃ s1, step cfg (.probeReturn w) s = some s1) := by
  have key : s.workers[w]? = some .selecting →
      ∀ l s1, l.worker = some w → step cfg l s = some s1 →
        (s1.workers[w]? = some .exited ∧ s1.probes = s.probes)
        ∨ (l = .handoff w ∧ offering cfg s) := by
    intro hw l s1 hl h
    have hex := getElem?_set_self_of_some s.workers w _ WorkerPc.exited hw
    cases l with
    | handoff v =>
      simp only [Label.worker] at hl
      injection hl with hl
      subst hl
      right
      refine ⟨rfl, ?_⟩
      simp only [step] at h
      split at h
      · rename_i _ _ k hm _
        split at h
        · rename_i hk
          exact ⟨k, hm, hk⟩
        · exact Option.noConfusion h
      · exact Option.noConfusion h
    | observeDone v =>
      simp only [Label.worker] at hl
      injection hl with hl
      subst hl
      left
      simp only [step, hw, hc, if_true] at h
      injection h with h
      subst h
      exact ⟨hex, rfl⟩
    | recvClosed v =>
      simp only [Label.worker] at hl
      injection hl with hl
      subst hl
      left
      simp only [step] at h
      split at h
      · exact Option.noConfusion h
      · injection h with h
        subst h
        exact ⟨hex, rfl⟩
      · exact Option.noConfusion h
    | probeReturn v =>
      simp only [Label.worker] at hl
      injection hl with hl
      subst hl
      simp [step, hw] at h
    | closeChan => simp [Label.worker] at hl
    | finish => simp [Label.worker] at hl
  refine ⟨fun hw => ⟨?_, key hw, ?_⟩, ?_⟩
  · refine ⟨{ s with workers := s.workers.set w .exited }, ?_, ?_, rfl⟩
    · simp [step, hw, hc]
    · exact getElem?_set_self_of_some s.workers w _ WorkerPc.exited hw
  · intro hno l s1 hl h
    rcases key hw l s1 hl h with h1 | h1
    · exact h1
    · exact absurd h1.2 hno
  · intro k hw
    by_cases hk : cfg.critical k = true
    · exact ⟨{ s with cancelled := true, workers := s.workers.set w .exited },
        by simp [step, hw, hk]⟩
    · exact ⟨{ s with workers := s.workers.set w .selecting }, by simp [step, hw, hk]⟩

/-- C5 amended, at the state of `raceConfig` in which worker 0 has cancelled
and worker 1 is back at its `select`. -/
theorem cancelled_worker_iteration_witness :
    (([WorkerPc.exited, WorkerPc.selecting])[1]? = some WorkerPc.selecting →
      (∃ s1, step raceConfig (.observeDone 1) ⟨.feeding 2, [.exited, .selecting], true, [0, 1]⟩
            = some s1
          ∧ s1.workers[1]? = some .exited ∧ s1.probes = [0, 1])
      ∧ (∀ l s1, l.worker = some 1 →
          step raceConfig l ⟨.feeding 2, [.exited, .selecting], true, [0, 1]⟩ = some s1 →
          (s1.workers[1]? = some .exited ∧ s1.probes = [0, 1])
          ∨ (l = .handoff 1
              ∧ offering raceConfig ⟨.feeding 2, [.exited, .selecting], true, [0, 1]⟩))
      ∧ (¬ offering raceConfig ⟨.feeding 2, [.exited, .selecting], true, [0, 1]⟩ →
          ∀ l s1, l.worker = some 1 →
          step raceConfig l ⟨.feeding 2, [.exited, .selecting], true, [0, 1]⟩ = some s1 →
          s1.workers[1]? = some .exited ∧ s1.probes = [0, 1]))
    ∧ (∀ k, ([WorkerPc.exited, WorkerPc.selecting])[1]? = some (WorkerPc.probing k) →
        ∃ s1, step raceConfig (.probeReturn 1) ⟨.feeding 2, [.exited, .selecting], true, [0, 1]⟩
          = some s1) :=
  cancelled_worker_iteration raceConfig ⟨.feeding 2, [.exited, .selecting], true, [0, 1]⟩ 1 rfl

/-! ## saveResults -/

theorem writeDomains_ok (env : FileEnv) (hw : ∀ j, env.writeError j = none) (ds : List Str) :
    ∀ (j : Nat) (content : Str) (out : List Output),
      writeDomains env ds j content out = (content ++ domainLines ds, out) := by
  induction ds with
  | nil =>
    intro j content out
    simp [writeDomains, domainLines]
  | cons d ds ih =>
    intro j content out
    rw [writeDomains, hw j]
    simp only
    rw [ih]
    simp [domainLines]

theorem writeDomains_extends (env : FileEnv) (ds : List Str) :
    ∀ (j : Nat) (content : Str) (out : List Output),
      ∃ t, (writeDomains env ds j content out).1 = content ++ t := by
  induction ds with
  | nil =>
    intro j content out
    exact ⟨[], by simp [writeDomains]⟩
  | cons d ds ih =>
    intro j content out
    rw [writeDomains]
    cases hj : env.writeError j with
    | none =>
      obtain ⟨t, ht⟩ := ih (j + 1) (content ++ (d ++ ['\n'])) out
      exact ⟨(d ++ ['\n']) ++ t, by rw [ht, List.append_assoc]⟩
    | some ne =>
      obtain ⟨n, err⟩ := ne
      obtain ⟨t, ht⟩ := ih (j + 1) (content ++ (d ++ ['\n']).take n)
        (out ++ [.printf (RED ++ "Error writing domain: ".toList ++ err ++ RESET ++ ['\n'])])
      exact ⟨(d ++ ['\n']).take n ++ t, by rw [ht, List.append_assoc]⟩

theorem writeDomains_console (env : FileEnv) (ds : List Str) :
    ∀ (j : Nat) (content : Str) (out : List Output),
      ∃ extra, (writeDomains env ds j content out).2 = out ++ extra
        ∧ ∀ o ∈ extra, o.isStatus = false := by
  induction ds with
  | nil =>
    intro j content out
    exact ⟨[], by simp [writeDomains], by simp⟩
  | cons d ds ih =>
    intro j content out
    rw [writeDomains]
    cases hj : env.writeError j with
    | none => exact ih _ _ _
    | some ne =>
      obtain ⟨n, err⟩ := ne
      obtain ⟨extra, he, hs⟩ := ih (j + 1) (content ++ (d ++ ['\n']).take n)
        (out ++ [.printf (RED ++ "Error writing domain: ".toList ++ err ++ RESET ++ ['\n'])])
      refine ⟨_ :: extra, by rw [he, List.append_assoc]; rfl, ?_⟩
      intro o ho
      rcases List.mem_cons.1 ho with h | h
      · subst h
        rfl
      · exact hs o h

theorem saveResults_console (env : FileEnv) (ds : List Str) (w : World) :
    ∃ extra, (saveResults env ds w).console = w.console ++ extra
      ∧ ∀ o ∈ extra, o.isStatus = false := by
  unfold saveResults
  cases ho : env.openError with
  | some err =>
    refine ⟨[_], rfl, ?_⟩
    intro o h
    simp only [List.mem_singleton] at h
    subst h
    rfl
  | none => exact writeDomains_console env ds 0 _ _

/-- C10: when the open and all writes succeed, the file after `saveResults`
is its prior content followed by each domain in order, each ended by a
newline; an empty list leaves the content as it was.  Whatever the file
system does, the prior content stays a prefix of the file. -/
theorem saveResults_appends (env : FileEnv) (ds : List Str) (c : Str) (w : World)
    (hfile : w.file = some c) :
    (env.openError = none → (∀ j, env.writeError j = none) →
      (saveResults env ds w).file = some (c ++ domainLines ds)
      ∧ (saveResults env ds w).console = w.console
      ∧ (ds = [] → (saveResults env ds w).file = some c))
    ∧ ∃ t, (saveResults env ds w).file = some (c ++ t) := by
  constructor
  · intro ho hw
    have hfileEq : (saveResults env ds w).file = some (c ++ domainLines ds) := by
      simp [saveResults, ho, hfile, writeDomains_ok env hw]
    refine ⟨hfileEq, ?_, ?_⟩
    · simp [saveResults, ho, writeDomains_ok env hw]
    · intro hds
      rw [hfileEq, hds]
      simp [domainLines]
  · unfold saveResults
    cases ho : env.openError with
    | some err => exact ⟨[], by simp [hfile]⟩
    | none =>
      obtain ⟨t, ht⟩ := writeDomains_extends env ds 0 (w.file.getD []) w.console
      refine ⟨t, ?_⟩
      rw [hfile] at ht
      simp only [hfile, Option.getD_some] at ht ⊢
      rw [ht]

/-- C10 on a file holding `old` and a newline, with two domains to save. -/
theorem saveResults_appends_witness :
    (saveResults okFs ["a.example".toList, "b.example".toList]
        ⟨[], some "old\n".toList, []⟩).file
      = some ("old\n".toList ++ domainLines ["a.example".toList, "b.example".toList]) :=
  ((saveResults_appends okFs ["a.example".toList, "b.example".toList] "old\n".toList
      ⟨[], some "old\n".toList, []⟩ rfl).1 rfl (fun _ => rfl)).1

/-! ## reverseLookup -/

/-- C7: a transport failure or a non-2xx status makes `reverseLookup` return
false and record nothing (so does every status other than 200, the one status
the code accepts); it returns the critical flag exactly when a response with
status 200 was received, its body was read and `json.Unmarshal` rejects the
body. -/
theorem reverseLookup_classification (env : LookupEnv) (ip : Str) (w : World) :
    (∀ e, env.newRequest (API_URL ++ ip) = none → env.clientDo (API_URL ++ ip) = .error e →
      (reverseLookup env ip w).1 = false
      ∧ (reverseLookup env ip w).2.file = w.file
      ∧ (reverseLookup env ip w).2.saveCalls = w.saveCalls)
    ∧ (∀ resp, env.newRequest (API_URL ++ ip) = none → env.clientDo (API_URL ++ ip) = .ok resp →
      ¬ (200 ≤ resp.StatusCode ∧ resp.StatusCode < 300) →
      (reverseLookup env ip w).1 = false
      ∧ (reverseLookup env ip w).2.file = w.file
      ∧ (reverseLookup env ip w).2.saveCalls = w.saveCalls)
    ∧ (∀ resp, env.newRequest (API_URL ++ ip) = none → env.clientDo (API_URL ++ ip) = .ok resp →
      resp.StatusCode ≠ 200 →
      (reverseLookup env ip w).1 = false
      ∧ (reverseLookup env ip w).2.file = w.file
      ∧ (reverseLookup env ip w).2.saveCalls = w.saveCalls)
    ∧ ((reverseLookup env ip w).1 = true ↔
      ∃ resp body e, env.newRequest (API_URL ++ ip) = none
        ∧ env.clientDo (API_URL ++ ip) = .ok resp ∧ resp.StatusCode = 200
        ∧ resp.body = .ok body ∧ env.unmarshal body = .error e) := by
  have hother : ∀ resp, env.newRequest (API_URL ++ ip) = none →
      env.clientDo (API_URL ++ ip) = .ok resp → resp.StatusCode ≠ 200 →
      (reverseLookup env ip w).1 = false
      ∧ (reverseLookup env ip w).2.file = w.file
      ∧ (reverseLookup env ip w).2.saveCalls = w.saveCalls := by
    intro resp hreq hdo hst
    have hne : resp.StatusCode ≠ StatusOK := hst
    simp [reverseLookup, hreq, hdo, hne, printStatus]
  refine ⟨?_, ?_, hother, ?_⟩
  · intro e hreq hdo
    simp [reverseLookup, hreq, hdo, printStatus]
  · intro resp hreq hdo hst
    exact hother resp hreq hdo (by omega)
  · cases hreq : env.newRequest (API_URL ++ ip) with
    | some err => simp [reverseLookup, hreq]
    | none =>
      cases hdo : env.clientDo (API_URL ++ ip) with
      | error err => simp [reverseLookup, hreq, hdo]
      | ok resp =>
        by_cases hst : resp.StatusCode = StatusOK
        · have hst200 : resp.StatusCode = 200 := hst
          cases hb : resp.body with
          | error err => simp [reverseLookup, hreq, hdo, hst, hb]
          | ok body =>
            cases hu : env.unmarshal body with
            | error err => simp [reverseLookup, hreq, hdo, hst200, hb, hu, StatusOK]
            | ok r =>
              by_cases ht : r.Total = 0
              · simp [reverseLookup, hreq, hdo, hst, hb, hu, ht]
              · simp [reverseLookup, hreq, hdo, hst, hb, hu, ht]
        · have hst200 : ¬ resp.StatusCode = 200 := hst
          simp [reverseLookup, hreq, hdo, hst, hst200]

/-- C7 on a server that answers an undecodable body: with status 200 the
lookup is critical; with status 503, and with status 204, it is not and
records nothing. -/
theorem reverseLookup_classification_witness :
    (reverseLookup (badBodyEnv 200) "10.0.0.3".toList emptyWorld).1 = true
    ∧ (reverseLookup (badBodyEnv 503) "10.0.0.3".toList emptyWorld).1 = false
    ∧ (reverseLookup (badBodyEnv 503) "10.0.0.3".toList emptyWorld).2.file = none
    ∧ (reverseLookup (badBodyEnv 503) "10.0.0.3".toList emptyWorld).2.saveCalls = []
    ∧ (reverseLookup (badBodyEnv 204) "10.0.0.3".toList emptyWorld).1 = false :=
  ⟨(reverseLookup_classification (badBodyEnv 200) "10.0.0.3".toList emptyWorld).2.2.2.2
      ⟨_, _, _, rfl, rfl, rfl, rfl, rfl⟩,
   ((reverseLookup_classification (badBodyEnv 503) "10.0.0.3".toList emptyWorld).2.1
      _ rfl rfl (by decide)).1,
   ((reverseLookup_classification (badBodyEnv 503) "10.0.0.3".toList emptyWorld).2.1
      _ rfl rfl (by decide)).2.1,
   ((reverseLookup_classification (badBodyEnv 503) "10.0.0.3".toList emptyWorld).2.1
      _ rfl rfl (by decide)).2.2,
   ((reverseLookup_classification (badBodyEnv 204) "10.0.0.3".toList emptyWorld).2.2.1
      _ rfl rfl (by decide)).1⟩

/-- C8: for a response that was decoded, a zero total passes nothing to
`saveResults` and leaves the file alone; a non-zero total passes the whole
result list to `saveResults`, unchanged, whatever its length. -/
theorem reverseLookup_parsed (env : LookupEnv) (ip : Str) (w : World) (resp : Response)
    (body : Str) (r : ApiResponse)
    (hreq : env.newRequest (API_URL ++ ip) = none)
    (hdo : env.clientDo (API_URL ++ ip) = .ok resp)
    (hst : resp.StatusCode = 200) (hbody : resp.body = .ok body)
    (hparse : env.unmarshal body = .ok r) :
    (reverseLookup env ip w).1 = false
    ∧ (r.Total = 0 →
        (reverseLookup env ip w).2.saveCalls = w.saveCalls
        ∧ (reverseLookup env ip w).2.file = w.file)
    ∧ (r.Total ≠ 0 →
        (reverseLookup env ip w).2.saveCalls = w.saveCalls ++ [r.Result]
        ∧ (reverseLookup env ip w).2 = saveResults env.fs r.Result
            (printStatus ip (GREEN ++ Itoa r.Total ++ " DOMAINS".toList) w)) := by
  have hst1 : resp.StatusCode = StatusOK := hst
  by_cases ht : r.Total = 0
  · simp [reverseLookup, hreq, hdo, hst1, hbody, hparse, ht, printStatus]
  · refine ⟨by simp [reverseLookup, hreq, hdo, hst1, hbody, hparse, ht], fun h => absurd h ht, ?_⟩
    intro _
    have heq : (reverseLookup env ip w).2 = saveResults env.fs r.Result
        (printStatus ip (GREEN ++ Itoa r.Total ++ " DOMAINS".toList) w) := by
      simp [reverseLookup, hreq, hdo, hst1, hbody, hparse, ht]
    refine ⟨?_, heq⟩
    rw [heq]
    unfold saveResults
    cases env.fs.openError <;> rfl

/-- C8 on a response with total 5 and the two results `a.example` and the
empty string: both are passed on and written. -/
theorem reverseLookup_parsed_witness :
    (reverseLookup (okEnv [] sampleDecode) "10.0.0.77".toList emptyWorld).2.saveCalls
      = [["a.example".toList, []]]
    ∧ (reverseLookup (okEnv [] sampleDecode) "10.0.0.77".toList emptyWorld).2.file
      = some "a.example\n\n".toList :=
  ⟨((reverseLookup_parsed (okEnv [] sampleDecode) "10.0.0.77".toList emptyWorld
      ⟨200, "200 OK".toList, .ok []⟩ [] ⟨5, ["a.example".toList, []]⟩ rfl rfl rfl rfl rfl).2.2
      (by decide)).1,
   by decide⟩

/-- C9: whatever the outcome of the lookup, `reverseLookup` writes exactly
one `printStatus` line, and it is a line for the address looked up. -/
theorem reverseLookup_one_status_line (env : LookupEnv) (ip : Str) (w : World) :
    (∃ message extra,
      (reverseLookup env ip w).2.console = w.console ++ Output.status ip message :: extra
      ∧ ∀ o ∈ extra, o.isStatus = false)
    ∧ ((reverseLookup env ip w).2.console.filter Output.isStatus).length
        = (w.console.filter Output.isStatus).length + 1 := by
  have h1 : ∃ message extra,
      (reverseLookup env ip w).2.console = w.console ++ Output.status ip message :: extra
      ∧ ∀ o ∈ extra, o.isStatus = false := by
    cases hreq : env.newRequest (API_URL ++ ip) with
    | some err =>
      exact ⟨RED ++ "Error: ".toList ++ err, [],
        by simp [reverseLookup, hreq, printStatus], by simp⟩
    | none =>
      cases hdo : env.clientDo (API_URL ++ ip) with
      | error err =>
        exact ⟨RED ++ "Error: ".toList ++ err, [],
          by simp [reverseLookup, hreq, hdo, printStatus], by simp⟩
      | ok resp =>
        by_cases hst : resp.StatusCode = StatusOK
        · cases hb : resp.body with
          | error err =>
            exact ⟨RED ++ "Error: ".toList ++ err, [],
              by simp [reverseLookup, hreq, hdo, hst, hb, printStatus], by simp⟩
          | ok body =>
            cases hu : env.unmarshal body with
            | error err =>
              exact ⟨RED ++ "Error parsing JSON: ".toList ++ err, [],
                by simp [reverseLookup, hreq, hdo, hst, hb, hu, printStatus], by simp⟩
            | ok r =>
              by_cases ht : r.Total = 0
              · exact ⟨RED ++ "NO".toList, [],
                  by simp [reverseLookup, hreq, hdo, hst, hb, hu, ht, printStatus], by simp⟩
              · obtain ⟨extra, he, hs⟩ := saveResults_console env.fs r.Result
                  (printStatus ip (GREEN ++ Itoa r.Total ++ " DOMAINS".toList) w)
                refine ⟨GREEN ++ Itoa r.Total ++ " DOMAINS".toList, extra, ?_, hs⟩
                have heq : (reverseLookup env ip w).2 = saveResults env.fs r.Result
                    (printStatus ip (GREEN ++ Itoa r.Total ++ " DOMAINS".toList) w) := by
                  simp [reverseLookup, hreq, hdo, hst, hb, hu, ht]
                rw [heq, he]
                simp [printStatus]
        · exact ⟨RED ++ "HTTP Error: ".toList ++ resp.Status, [],
            by simp [reverseLookup, hreq, hdo, hst, printStatus], by simp⟩
  refine ⟨h1, ?_⟩
  obtain ⟨message, extra, he, hs⟩ := h1
  rw [he, List.filter_append, List.filter_cons]
  have hex : extra.filter Output.isStatus = [] := by
    rw [List.filter_eq_nil_iff]
    intro o ho
    rw [hs o ho]
    exact Bool.false_ne_true
  simp [Output.isStatus, hex]

end XReverseLabs
